import Mathlib

/-!
A verification development for `podgenUI.py`.

The program's core (per the specification) is the HTML article extractor
`extract_text_from_url` (podgenUI.py lines 167-236).  We embed the stage of
that function that runs after the HTTP response body has been parsed into an
element tree: the input is a `Node` tree (the tree BeautifulSoup produces),
and the embedding mirrors, step by step, the tag removal, title handling,
scope selection, heading/paragraph pass, div fallback pass, joining, and
whitespace normalization performed by the Python code.  Whitespace is
modelled at the ASCII level (the character class of Python's `str.strip`
and of `\s` restricted to ASCII).

Also embedded: `process_text_with_gpt` (lines 139-156) with the chat
completion call abstracted as an oracle value, and `load_config` /
`save_config` (lines 59-91) together with the part of `configparser`'s
file format they exercise.
-/

set_option maxRecDepth 40000

/-- Python strings are modelled as lists of characters. -/
abbrev Str := List Char

/-- The ASCII whitespace characters of Python's `str.strip()` and `re` `\s`:
space, tab, newline, carriage return, vertical tab, form feed. -/
def isPySpace (c : Char) : Bool :=
  c = ' ' || c = '\t' || c = '\n' || c = '\r' || c = '\x0B' || c = '\x0C'

/-- Remove trailing `isPySpace` characters (the right half of `str.strip()`). -/
def rstripWs : Str → Str
  | [] => []
  | c :: cs =>
    let r := rstripWs cs
    if r = [] && isPySpace c then [] else c :: r

/-- Python `str.strip()` (no arguments): remove leading and trailing whitespace. -/
def stripChars (l : Str) : Str := rstripWs (l.dropWhile isPySpace)

/-- Python `text.split('\n')`: `n` separators yield `n + 1` parts. -/
def splitLines : Str → List Str
  | [] => [[]]
  | c :: cs =>
    if c = '\n' then [] :: splitLines cs
    else (c :: (splitLines cs).headI) :: (splitLines cs).tail

/-- Python `'\n'.join(parts)`. -/
def joinLines : List Str → Str
  | [] => []
  | [l] => l
  | l :: ls => l ++ '\n' :: joinLines ls

/-- Helper for the regex `\n\s*\n`: the length of the longest prefix of the
argument that consists of whitespace characters and ends with `'\n'`
(the span the greedy `\s*` plus the final `\n` consume after the initial
`\n`), or `none` when no such prefix exists (no match at this position). -/
def matchTail : Str → Option Nat
  | [] => none
  | c :: cs =>
    if isPySpace c then
      match matchTail cs with
      | some n => some (n + 1)
      | none => if c = '\n' then some 1 else none
    else none

/-- Python `re.sub(r'\n\s*\n', '\n\n', text)` (podgenUI.py line 228), with fuel for
structural termination: scanning left to right, each `'\n'` followed by a
whitespace run containing a later `'\n'` is collapsed, together with that
run up to its last `'\n'`, into exactly two newlines; scanning resumes
after the consumed span. -/
def sub1F : Nat → Str → Str
  | 0, l => l
  | _, [] => []
  | fuel + 1, c :: cs =>
    if c = '\n' then
      match matchTail cs with
      | some n => '\n' :: '\n' :: sub1F fuel (cs.drop n)
      | none => c :: sub1F fuel cs
    else c :: sub1F fuel cs

def sub1 (l : Str) : Str := sub1F l.length l

/-- Python `'\n'.join(line.strip() for line in text.split('\n'))` (line 230). -/
def lineStrip (t : Str) : Str := joinLines ((splitLines t).map stripChars)

/-- Python `re.sub(r'\n\n\n+', '\n\n', text)` (line 232), with fuel: every maximal
run of three or more newlines is collapsed to exactly two. -/
def sub3F : Nat → Str → Str
  | 0, l => l
  | _, [] => []
  | fuel + 1, c :: cs =>
    if c = '\n' ∧ cs.take 2 = ['\n', '\n'] then
      '\n' :: '\n' :: sub3F fuel (cs.dropWhile (· = '\n'))
    else c :: sub3F fuel cs

def sub3 (l : Str) : Str := sub3F l.length l

/-- The whole cleanup block of `extract_text_from_url` (lines 226-234):
collapse blank runs, strip every line, collapse remaining newline runs,
strip the final string. -/
def cleanText (t : Str) : Str := stripChars (sub3 (lineStrip (sub1 t)))

/-! ## The element tree

`Node` is the parsed HTML tree handed to the extraction stage by
`BeautifulSoup(response.text, 'html.parser')`.  An element has a tag name
and children; a text node holds a string (HTML entities already decoded by
the parser).  The document root is the soup object itself, an element whose
tag (bs4 calls it `[document]`) matches no search. -/

inductive Node where
  | elem (tag : String) (children : List Node)
  | text (s : Str)

def tagOf : Node → String
  | .elem t _ => t
  | .text _ => ""

def childrenOf : Node → List Node
  | .elem _ cs => cs
  | .text _ => []

/-- bs4 `Tag` truthiness: `Tag.__len__` returns the number of children and
there is no `__bool__`, so `if tag:` tests for at least one child. -/
def truthy (n : Node) : Bool := !(childrenOf n).isEmpty

mutual
/-- A node together with its descendants, in document (pre-)order:
bs4's `self` plus `self.descendants`. -/
def allNodesN : Node → List Node
  | .text s => [.text s]
  | .elem t cs => .elem t cs :: allNodesL cs

def allNodesL : List Node → List Node
  | [] => []
  | n :: ns => allNodesN n ++ allNodesL ns
end

/-- bs4 `self.descendants`, in document order, excluding the node itself. -/
def descendants (n : Node) : List Node := (allNodesN n).tail

def isTag (tags : List String) : Node → Bool
  | .elem t _ => tags.contains t
  | .text _ => false

/-- bs4 `node.find([tags])`: the first descendant element, in document order,
whose tag is in the list. -/
def find (tags : List String) (n : Node) : Option Node :=
  ((descendants n).filter (isTag tags)).head?

/-- bs4 `node.find_all([tags], recursive=True)`: all descendant elements, in
document order, whose tag is in the list. -/
def find_all (tags : List String) (n : Node) : List Node :=
  (descendants n).filter (isTag tags)

def textOf : Node → Option Str
  | .text s => some s
  | .elem _ _ => none

/-- The strings of all text nodes in a subtree, in document order. -/
def textsOf (n : Node) : List Str := (allNodesN n).filterMap textOf

/-- bs4 `node.get_text(strip=True)` with the default empty separator: each
descendant string is stripped, empty results are dropped, and the rest are
concatenated with no separator between them. -/
def get_text_strip (n : Node) : Str := ((textsOf n).map stripChars).flatten

/-- bs4 `Tag.string`: with exactly one child, the child itself if it is a
string, else the child's `.string`; with zero or several children, `None`. -/
def tagString : Node → Option Str
  | .text s => some s
  | .elem _ [c] => tagString c
  | .elem _ _ => none

/-- The tags removed by the decompose loop (lines 180-182). -/
def badTags : List String :=
  ["script", "style", "meta", "link", "noscript", "header", "footer", "nav", "aside"]

mutual
/-- bs4 `element.decompose()` applied to every element found by
`soup([...badTags])`: the whole subtree of each matching element is
deleted.  Returns `none` when the node itself is removed. -/
def scrubN : Node → Option Node
  | .text s => some (.text s)
  | .elem t cs => if badTags.contains t then none else some (.elem t (scrubL cs))

def scrubL : List Node → List Node
  | [] => []
  | n :: ns =>
    match scrubN n with
    | some m => m :: scrubL ns
    | none => scrubL ns
end

/-- The decompose loop applied to the soup: the root (the `[document]`
container) is never matched, its descendants are scrubbed. -/
def decomposeAll : Node → Node
  | .text s => .text s
  | .elem t cs => .elem t (scrubL cs)

/-! ## The extraction pipeline -/

/-- Lines 184-188: `title = soup.title.string.strip() if soup.title else ""`.
An absent title and a falsy (childless) title element give the empty title;
a truthy title element whose `.string` is `None` (several children) makes
`.strip()` raise `AttributeError`, modelled as `Except.error`. -/
def titleStep (soup : Node) : Except Unit Str :=
  match find ["title"] soup with
  | none => .ok []
  | some t =>
    if truthy t then
      match tagString t with
      | none => .error ()
      | some s => .ok (stripChars s)
    else .ok []

/-- Line 200: `main_content = soup.find(['main', 'article']) or soup` —
note `or` falls back to the soup when the found element is falsy (childless). -/
def main_content (soup : Node) : Node :=
  match find ["main", "article"] soup with
  | some m => if truthy m then m else soup
  | none => soup

inductive SegKind where
  | title
  | heading
  | paragraph
  | textblock
deriving DecidableEq, Repr

/-- One entry of `content_parts`, kept as (kind, text) so that the emitted
text and its decoration can be reasoned about separately. -/
structure Seg where
  kind : SegKind
  text : Str
deriving DecidableEq, Repr

/-- The decoration each append site gives its text: `title + "\n\n"` (line
196), `"\n" + text + "\n"` for headings (line 209), `text + "\n\n"` for
paragraphs (line 212) and div text blocks (line 221). -/
def renderSeg : Seg → Str
  | ⟨.title, t⟩ => t ++ ['\n', '\n']
  | ⟨.heading, t⟩ => '\n' :: t ++ ['\n']
  | ⟨.paragraph, t⟩ => t ++ ['\n', '\n']
  | ⟨.textblock, t⟩ => t ++ ['\n', '\n']

def hpTags : List String := ["h1", "h2", "h3", "h4", "h5", "h6", "p"]

/-- Python `element.name.startswith('h')` (line 208): for the one-character prefix
`'h'` this is exactly "the first character is `'h'`". -/
def nameStartsH (s : String) : Bool := s.data.head? == some 'h'

/-- The heading/paragraph loop (lines 203-212) over the found elements,
threading `processed_text` (the seen set, modelled as the list of strings
added so far): emit the stripped text when nonempty and unseen, as a
heading when the tag starts with `'h'`, else as a paragraph. -/
def hpPass : List Node → List Str → List Seg × List Str
  | [], seen => ([], seen)
  | el :: els, seen =>
    let t := get_text_strip el
    if t ≠ [] ∧ t ∉ seen then
      let k := if nameStartsH (tagOf el) then SegKind.heading else SegKind.paragraph
      let r := hpPass els (t :: seen)
      (⟨k, t⟩ :: r.1, r.2)
    else hpPass els seen

/-- The div fallback loop (lines 215-221): skip a div that has any nested
h1-h6 or p descendant; otherwise emit its stripped text when nonempty,
longer than 50 characters, and unseen. -/
def divPass : List Node → List Str → List Seg × List Str
  | [], seen => ([], seen)
  | el :: els, seen =>
    if (find hpTags el).isSome then divPass els seen
    else
      let t := get_text_strip el
      if t ≠ [] ∧ 50 < t.length ∧ t ∉ seen then
        let r := divPass els (t :: seen)
        (⟨.textblock, t⟩ :: r.1, r.2)
      else divPass els seen

/-- Lines 178-221 as a segment list: decompose unwanted tags, capture the
title (registering it in the seen set), select the scope, run the
heading/paragraph pass and then the div pass. -/
def extractSegments (doc : Node) : Except Unit (List Seg) :=
  let soup := decomposeAll doc
  match titleStep soup with
  | .error e => .error e
  | .ok title =>
    let init : List Seg × List Str :=
      if title ≠ [] then ([⟨.title, title⟩], [title]) else ([], [])
    let mc := main_content soup
    let hp := hpPass (find_all hpTags mc) init.2
    let dv := divPass (find_all ["div"] mc) hp.2
    .ok (init.1 ++ hp.1 ++ dv.1)

/-- Line 224: `text = ''.join(content_parts)`. -/
def joinedText (segs : List Seg) : Str := (segs.map renderSeg).flatten

/-- The parsing-and-extraction stage of `extract_text_from_url` (lines
178-234): everything after the HTTP response body has been obtained, on the
parsed tree.  The `try`/`except` re-raise (lines 235-236) turns the one
internal failure point (the title's `.strip()` on `None`) into an error. -/
def extract_text_from_url (doc : Node) : Except Unit Str :=
  match extractSegments doc with
  | .error e => .error e
  | .ok segs => .ok (cleanText (joinedText segs))

/-! ### Concrete documents used by the claims -/

/-- The document `<title>Hello</title><body><h1>Hello</h1><p>World</p></body>` as parsed
by `html.parser` (which adds no implicit wrapper elements). -/
def doc4 : Node :=
  .elem "[document]"
    [.elem "title" [.text "Hello".data],
     .elem "body"
       [.elem "h1" [.text "Hello".data],
        .elem "p" [.text "World".data]]]

/-- The document `<title>a<b>c</b></title>`: a non-empty title whose contents are two
children, so `soup.title.string` is `None`. -/
def docBadTitle : Node :=
  .elem "[document]"
    [.elem "title" [.text "a".data, .elem "b" [.text "c".data]],
     .elem "body" [.elem "p" [.text "World".data]]]

/-- The document `<p>Hello <b>world</b></p>`. -/
def docPB : Node :=
  .elem "[document]"
    [.elem "body" [.elem "p" [.text "Hello ".data, .elem "b" [.text "world".data]]]]

/-- A div with 30 characters of plain text and no nested heading/paragraph. -/
def doc30 : Node :=
  .elem "[document]"
    [.elem "body" [.elem "div" [.text "abcdefghijklmnopqrstuvwxyz1234".data]]]

/-- A div with 60 characters of unique plain text and no nested
heading/paragraph. -/
def text60 : Str :=
  "abcdefghijklmnopqrstuvwxyz1234abcdefghijklmnopqrstuvwxyz5678".data

def doc60 : Node :=
  .elem "[document]" [.elem "body" [.elem "div" [.text text60]]]

/-- A qualifying div occurring before a paragraph in document order. -/
def docDivFirst : Node :=
  .elem "[document]"
    [.elem "body"
      [.elem "div" [.text text60],
       .elem "p" [.text "After".data]]]

/-- A script whose text contains `'Z'`, next to a paragraph. -/
def docScript : Node :=
  .elem "[document]"
    [.elem "body"
      [.elem "script" [.text "var Z = 1;".data],
       .elem "p" [.text "Keep".data]]]

/-! ## `process_text_with_gpt` (lines 139-156)

The chat-completion call (client construction plus
`client.chat.completions.create(...)`) is an external effect; it is
abstracted as an oracle value: either the response object or the raised
exception.  The function body around it is embedded exactly: any exception
inside the `try` block (including the `IndexError` from `choices[0]` on an
empty choices list) is caught and the original text returned; on success
the first choice's message content is returned. -/

structure ChatMessage where
  role : Str
  content : Str

structure ChatChoice where
  message : ChatMessage

structure ChatResponse where
  choices : List ChatChoice

def process_text_with_gpt (text : Str) (call : Except Str ChatResponse) : Str :=
  match call with
  | .error _ => text
  | .ok r =>
    match r.choices.head? with
    | some c => c.message.content
    | none => text

/-! ## `load_config` / `save_config` (lines 59-91)

The INI file is modelled as its character content.  `save_config` embeds
exactly what `configparser.ConfigParser.write` emits for the one section
the code builds: `[GPT]`, one `key = value` line per option in insertion
order, and a trailing blank line.  The reader models `configparser.read`
on the line shapes this writer can emit: blank lines are skipped, a
`[name]` line selects a section, and an option line is split at its first
`=` or `:` with both sides stripped.  (Interpolation, continuation lines,
comments and duplicate handling are not exercised by these shapes; the
round-trip theorem's hypotheses restrict values accordingly.) -/

structure GptSettings where
  use_gpt : Bool
  model_name : Str
  base_url : Str
  api_key : Str
  system_prompt : Str
deriving DecidableEq, Repr

def defaultPrompt : Str :=
  "请将输入的文本整理成标题和正文的格式，去除不必要的内容，保持文章的主要信息。以纯文本格式输出。".data

/-- The fallback values of `load_config` (lines 66-78). -/
def defaultSettings : GptSettings :=
  ⟨false, "gpt-3.5-turbo".data, "https://api.openai.com/v1".data, [], defaultPrompt⟩

/-- Python `str(b)` for a `bool`. -/
def pyStrBool : Bool → Str
  | true => "True".data
  | false => "False".data

/-- The function `save_config` (lines 80-91): the file content `ConfigParser.write`
produces for the section dict built from `settings`. -/
def save_config (s : GptSettings) : Str :=
  "[GPT]".data ++ '\n' ::
  ("use_gpt = ".data ++ pyStrBool s.use_gpt ++ '\n' ::
  ("model_name = ".data ++ s.model_name ++ '\n' ::
  ("base_url = ".data ++ s.base_url ++ '\n' ::
  ("api_key = ".data ++ s.api_key ++ '\n' ::
  ("system_prompt = ".data ++ s.system_prompt ++ '\n' :: ['\n'])))))

/-- Split an option line at its first `=` or `:` delimiter. -/
def splitKV : Str → Option (Str × Str)
  | [] => none
  | c :: cs =>
    if c = '=' ∨ c = ':' then some ([], cs)
    else
      match splitKV cs with
      | some (k, v) => some (c :: k, v)
      | none => none

/-- A `[name]` section-header line (configparser's `SECTCRE`). -/
def headerNameOf : Str → Option Str
  | '[' :: rest =>
    if rest.getLast? = some ']' ∧ 2 ≤ rest.length then some rest.dropLast else none
  | _ => none

/-- The reader's pass over the file's lines: returns whether a `[GPT]`
section occurred and the option pairs collected inside it. -/
def iniLoop : List Str → Bool → Bool → List (Str × Str) → Bool × List (Str × Str)
  | [], _, seenG, acc => (seenG, acc)
  | l :: ls, inG, seenG, acc =>
    if l = [] then iniLoop ls inG seenG acc
    else
      match headerNameOf l with
      | some name =>
        let g := name == "GPT".data
        iniLoop ls g (seenG || g) acc
      | none =>
        match splitKV l with
        | some (k, v) =>
          iniLoop ls inG seenG (if inG then acc ++ [(stripChars k, stripChars v)] else acc)
        | none => iniLoop ls inG seenG acc

def iniParse (content : Str) : Bool × List (Str × Str) :=
  iniLoop (splitLines content) false false []

def lookupOpt (opts : List (Str × Str)) (k : Str) : Option Str :=
  (opts.find? (fun p => p.1 == k)).map (·.2)

def lowerStr (s : Str) : Str := s.map Char.toLower

/-- The table `configparser.ConfigParser.BOOLEAN_STATES`. -/
def booleanStates : List (Str × Bool) :=
  [("1".data, true), ("yes".data, true), ("true".data, true), ("on".data, true),
   ("0".data, false), ("no".data, false), ("false".data, false), ("off".data, false)]

/-- configparser `SectionProxy.getboolean`: case-insensitive lookup in `BOOLEAN_STATES`;
an unrecognized value raises `ValueError`. -/
def getbooleanOpt (v : Str) : Option Bool :=
  (booleanStates.find? (fun p => p.1 == lowerStr v)).map (·.2)

/-- The function `load_config` (lines 59-78): `none` models a missing `podgenUI.ini`
(`os.path.exists` false).  With a `[GPT]` section present, each option is
read with its fallback; `use_gpt` goes through `getboolean`, whose
`ValueError` on an unrecognized value is the one failure point. -/
def load_config : Option Str → Except Unit GptSettings
  | none => .ok defaultSettings
  | some content =>
    let r := iniParse content
    if r.1 then
      match lookupOpt r.2 "use_gpt".data with
      | none =>
        .ok ⟨false,
          (lookupOpt r.2 "model_name".data).getD "gpt-3.5-turbo".data,
          (lookupOpt r.2 "base_url".data).getD "https://api.openai.com/v1".data,
          (lookupOpt r.2 "api_key".data).getD [],
          (lookupOpt r.2 "system_prompt".data).getD defaultPrompt⟩
      | some v =>
        match getbooleanOpt v with
        | none => .error ()
        | some b =>
          .ok ⟨b,
            (lookupOpt r.2 "model_name".data).getD "gpt-3.5-turbo".data,
            (lookupOpt r.2 "base_url".data).getD "https://api.openai.com/v1".data,
            (lookupOpt r.2 "api_key".data).getD [],
            (lookupOpt r.2 "system_prompt".data).getD defaultPrompt⟩
    else .ok defaultSettings

/-! ## Lemmas about stripping -/

/-- Whether an optional boundary character is absent or not whitespace. -/
def noWsEnd : Option Char → Bool
  | none => true
  | some c => !isPySpace c

/-- A line with neither leading nor trailing whitespace. -/
def strippedLine (l : Str) : Bool := noWsEnd l.head? && noWsEnd l.getLast?

theorem dropWhile_eq_self_of_head (l : Str) (h : noWsEnd l.head? = true) :
    l.dropWhile isPySpace = l := by
  cases l with
  | nil => rfl
  | cons c cs =>
    simp only [List.head?_cons, noWsEnd, Bool.not_eq_true'] at h
    simp [List.dropWhile_cons, h]

theorem rstripWs_eq_self_of_getLast (l : Str) (h : noWsEnd l.getLast? = true) :
    rstripWs l = l := by
  induction l with
  | nil => rfl
  | cons c cs ih =>
    cases cs with
    | nil =>
      simp only [List.getLast?_singleton, noWsEnd, Bool.not_eq_true'] at h
      simp [rstripWs, h]
    | cons d ds =>
      rw [List.getLast?_cons_cons] at h
      have hr := ih h
      show (if rstripWs (d :: ds) = [] && isPySpace c then [] else c :: rstripWs (d :: ds)) =
        c :: d :: ds
      rw [hr]
      simp

theorem rstripWs_nil_or_head (l : Str) :
    rstripWs l = [] ∨ (rstripWs l).head? = l.head? := by
  cases l with
  | nil => exact Or.inl rfl
  | cons c cs =>
    simp only [rstripWs]
    by_cases h : rstripWs cs = [] ∧ isPySpace c = true
    · left; simp [h.1, h.2]
    · right
      have hb : (rstripWs cs = [] && isPySpace c) = false := by
        rcases Bool.eq_false_or_eq_true (isPySpace c) with hc | hc
        · simp only [hc, Bool.and_true, decide_eq_false_iff_not]
          intro hnil
          exact h ⟨hnil, hc⟩
        · simp [hc]
      simp [hb]

theorem noWsEnd_getLast_rstripWs (l : Str) : noWsEnd (rstripWs l).getLast? = true := by
  induction l with
  | nil => rfl
  | cons c cs ih =>
    simp only [rstripWs]
    by_cases hnil : rstripWs cs = []
    · rcases Bool.eq_false_or_eq_true (isPySpace c) with hc | hc
      · simp [hnil, hc, noWsEnd]
      · simp [hnil, hc, noWsEnd]
    · have hb : (rstripWs cs = [] && isPySpace c) = false := by
        simp [hnil]
      simp only [hb, Bool.false_eq_true, if_false]
      obtain ⟨d, ds, hds⟩ := List.exists_cons_of_ne_nil hnil
      rw [hds] at ih ⊢
      rw [List.getLast?_cons_cons]
      exact ih

theorem noWsEnd_head_stripChars (l : Str) : noWsEnd (stripChars l).head? = true := by
  unfold stripChars
  rcases rstripWs_nil_or_head (l.dropWhile isPySpace) with h | h
  · simp [h, noWsEnd]
  · rw [h]
    have h2 := List.head?_dropWhile_not isPySpace l
    cases hh : (l.dropWhile isPySpace).head? with
    | none => simp [noWsEnd]
    | some c =>
      rw [hh] at h2
      simp only [noWsEnd, Bool.not_eq_true']
      exact h2

theorem noWsEnd_getLast_stripChars (l : Str) : noWsEnd (stripChars l).getLast? = true :=
  noWsEnd_getLast_rstripWs _

theorem strippedLine_stripChars (l : Str) : strippedLine (stripChars l) = true := by
  simp [strippedLine, noWsEnd_head_stripChars, noWsEnd_getLast_stripChars]

/-- A string is a fixed point of `strip` exactly when it has no leading or
trailing whitespace. -/
theorem stripChars_eq_self_iff (l : Str) : stripChars l = l ↔ strippedLine l = true := by
  constructor
  · intro h
    rw [← h]
    exact strippedLine_stripChars l
  · intro h
    simp only [strippedLine, Bool.and_eq_true] at h
    rw [stripChars, dropWhile_eq_self_of_head l h.1, rstripWs_eq_self_of_getLast l h.2]

theorem stripChars_idem (l : Str) : stripChars (stripChars l) = stripChars l :=
  (stripChars_eq_self_iff _).mpr (strippedLine_stripChars l)

theorem mem_rstripWs {c : Char} {l : Str} (h : c ∈ rstripWs l) : c ∈ l := by
  induction l with
  | nil => simp [rstripWs] at h
  | cons d ds ih =>
    simp only [rstripWs] at h
    by_cases hb : (rstripWs ds = [] && isPySpace d) = true
    · simp [hb] at h
    · simp only [hb, Bool.false_eq_true, if_false, List.mem_cons] at h
      rcases h with h | h
      · simp [h]
      · exact List.mem_cons_of_mem _ (ih h)

theorem mem_stripChars {c : Char} {l : Str} (h : c ∈ stripChars l) : c ∈ l :=
  (List.dropWhile_sublist isPySpace).subset (mem_rstripWs h)

/-! ## Lemmas about line splitting and joining -/

def notNlChar (c : Char) : Bool := c ≠ '\n'

theorem splitLines_ne_nil (t : Str) : splitLines t ≠ [] := by
  cases t with
  | nil => simp [splitLines]
  | cons c cs => by_cases h : c = '\n' <;> simp [splitLines, h]

theorem splitLines_cons_eq (t : Str) :
    splitLines t = (splitLines t).headI :: (splitLines t).tail := by
  obtain ⟨l, ls, h⟩ := List.exists_cons_of_ne_nil (splitLines_ne_nil t)
  rw [h]
  rfl

theorem headI_splitLines (t : Str) :
    (splitLines t).headI = t.takeWhile notNlChar := by
  induction t with
  | nil => rfl
  | cons c cs ih =>
    by_cases h : c = '\n'
    · subst h
      simp [splitLines, List.takeWhile_cons, notNlChar]
    · simp [splitLines, h, List.takeWhile_cons, notNlChar, ih]

theorem mem_of_mem_splitLines {c : Char} {l t : Str}
    (hl : l ∈ splitLines t) (hc : c ∈ l) : c ∈ t := by
  induction t generalizing l with
  | nil =>
    simp only [splitLines, List.mem_singleton] at hl
    subst hl
    simp at hc
  | cons d ds ih =>
    by_cases h : d = '\n'
    · subst h
      rw [show splitLines ('\n' :: ds) = [] :: splitLines ds by simp [splitLines]] at hl
      rcases List.mem_cons.mp hl with hl' | hl'
      · subst hl'; simp at hc
      · exact List.mem_cons_of_mem _ (ih hl' hc)
    · rw [show splitLines (d :: ds) =
        (d :: (splitLines ds).headI) :: (splitLines ds).tail by simp [splitLines, h]] at hl
      rcases List.mem_cons.mp hl with hl' | hl'
      · subst hl'
        rcases List.mem_cons.mp hc with hc | hc
        · simp [hc]
        · have hm : (splitLines ds).headI ∈ splitLines ds := by
            rw [splitLines_cons_eq ds]
            exact List.mem_cons_self _ _
          exact List.mem_cons_of_mem _ (ih hm hc)
      · have hm : l ∈ splitLines ds := by
          rw [splitLines_cons_eq ds]
          exact List.mem_cons_of_mem _ hl'
        exact List.mem_cons_of_mem _ (ih hm hc)

theorem nl_not_mem_splitLines {l t : Str} (hl : l ∈ splitLines t) : '\n' ∉ l := by
  induction t generalizing l with
  | nil =>
    simp only [splitLines, List.mem_singleton] at hl
    subst hl
    simp
  | cons d ds ih =>
    by_cases h : d = '\n'
    · subst h
      rw [show splitLines ('\n' :: ds) = [] :: splitLines ds by simp [splitLines]] at hl
      rcases List.mem_cons.mp hl with hl' | hl'
      · subst hl'; simp
      · exact ih hl'
    · rw [show splitLines (d :: ds) =
        (d :: (splitLines ds).headI) :: (splitLines ds).tail by simp [splitLines, h]] at hl
      rcases List.mem_cons.mp hl with hl' | hl'
      · subst hl'
        intro hmem
        rcases List.mem_cons.mp hmem with hc | hc
        · exact h hc.symm
        · have hh : (splitLines ds).headI ∈ splitLines ds := by
            rw [splitLines_cons_eq ds]
            exact List.mem_cons_self _ _
          exact ih hh hc
      · have hm : l ∈ splitLines ds := by
          rw [splitLines_cons_eq ds]
          exact List.mem_cons_of_mem _ hl'
        exact ih hm

theorem splitLines_nlFree {l : Str} (h : '\n' ∉ l) : splitLines l = [l] := by
  induction l with
  | nil => rfl
  | cons c cs ih =>
    have hc : c ≠ '\n' := fun he => h (he ▸ List.mem_cons_self c cs)
    have hcs : '\n' ∉ cs := fun hm => h (List.mem_cons_of_mem _ hm)
    simp [splitLines, hc, ih hcs]

theorem splitLines_append_nl {a b : Str} (h : '\n' ∉ a) :
    splitLines (a ++ '\n' :: b) = a :: splitLines b := by
  induction a with
  | nil => simp [splitLines]
  | cons c cs ih =>
    have hc : c ≠ '\n' := fun he => h (he ▸ List.mem_cons_self c cs)
    have hcs : '\n' ∉ cs := fun hm => h (List.mem_cons_of_mem _ hm)
    simp [splitLines, hc, ih hcs]

theorem joinLines_cons_of_ne {l : Str} {ls : List Str} (h : ls ≠ []) :
    joinLines (l :: ls) = l ++ '\n' :: joinLines ls := by
  obtain ⟨m, ms, rfl⟩ := List.exists_cons_of_ne_nil h
  rfl

theorem splitLines_joinLines {ls : List Str} (hne : ls ≠ [])
    (h : ∀ l ∈ ls, '\n' ∉ l) : splitLines (joinLines ls) = ls := by
  induction ls with
  | nil => exact absurd rfl hne
  | cons l ms ih =>
    cases ms with
    | nil =>
      show splitLines (joinLines [l]) = [l]
      exact splitLines_nlFree (h l (List.mem_cons_self _ _))
    | cons m ms' =>
      rw [joinLines_cons_of_ne (by simp)]
      rw [splitLines_append_nl (h l (List.mem_cons_self _ _))]
      rw [ih (by simp) (fun x hx => h x (List.mem_cons_of_mem _ hx))]

theorem joinLines_splitLines (t : Str) : joinLines (splitLines t) = t := by
  induction t with
  | nil => rfl
  | cons c cs ih =>
    by_cases h : c = '\n'
    · subst h
      rw [show splitLines ('\n' :: cs) = [] :: splitLines cs by simp [splitLines]]
      rw [joinLines_cons_of_ne (splitLines_ne_nil cs)]
      simp [ih]
    · rw [show splitLines (c :: cs) =
        (c :: (splitLines cs).headI) :: (splitLines cs).tail by simp [splitLines, h]]
      cases htl : (splitLines cs).tail with
      | nil =>
        have hS : splitLines cs = [(splitLines cs).headI] := by
          conv_lhs => rw [splitLines_cons_eq cs]
          rw [htl]
        show joinLines [c :: (splitLines cs).headI] = c :: cs
        have : joinLines (splitLines cs) = (splitLines cs).headI := by
          rw [hS]
          rfl
        rw [this] at ih
        show c :: (splitLines cs).headI = c :: cs
        rw [ih]
      | cons x xs =>
        rw [joinLines_cons_of_ne (by simp)]
        have ih' : (splitLines cs).headI ++ '\n' :: joinLines (x :: xs) = cs := by
          have h1 : joinLines (splitLines cs) =
              (splitLines cs).headI ++ '\n' :: joinLines (x :: xs) := by
            conv_lhs => rw [splitLines_cons_eq cs]
            rw [htl, joinLines_cons_of_ne (by simp)]
          rw [← h1, ih]
        rw [List.cons_append, ih']

theorem splitLines_append_single_nl (a : Str) :
    splitLines (a ++ ['\n']) = splitLines a ++ [[]] := by
  induction a with
  | nil => simp [splitLines]
  | cons c cs ih =>
    by_cases h : c = '\n'
    · subst h
      simp only [List.cons_append]
      rw [show splitLines ('\n' :: (cs ++ ['\n'])) = [] :: splitLines (cs ++ ['\n']) by
        simp [splitLines]]
      rw [ih]
      simp [splitLines]
    · simp only [List.cons_append]
      rw [show splitLines (c :: (cs ++ ['\n'])) =
        (c :: (splitLines (cs ++ ['\n'])).headI) :: (splitLines (cs ++ ['\n'])).tail by
        simp [splitLines, h]]
      rw [show splitLines (c :: cs) =
        (c :: (splitLines cs).headI) :: (splitLines cs).tail by simp [splitLines, h]]
      rw [ih]
      have hne := splitLines_ne_nil cs
      obtain ⟨x, xs, hx⟩ := List.exists_cons_of_ne_nil hne
      rw [hx]
      simp

theorem splitLines_replicate_nl_append (j : Nat) (b : Str) :
    splitLines (List.replicate j '\n' ++ b) = List.replicate j [] ++ splitLines b := by
  induction j with
  | zero => simp
  | succ k ih =>
    rw [List.replicate_succ, List.cons_append]
    rw [show splitLines ('\n' :: (List.replicate k '\n' ++ b)) =
      [] :: splitLines (List.replicate k '\n' ++ b) by simp [splitLines]]
    rw [ih, List.replicate_succ]
    rfl

/-! ## Lemmas about the newline-run collapse -/

/-- Whether three consecutive newline characters occur somewhere. -/
def hasTriple : Str → Bool
  | c1 :: c2 :: c3 :: rest =>
    (c1 = '\n' && c2 = '\n' && c3 = '\n') || hasTriple (c2 :: c3 :: rest)
  | _ => false

theorem hasTriple_tail {c : Char} {cs : Str} (h : hasTriple (c :: cs) = false) :
    hasTriple cs = false := by
  match cs with
  | [] => rfl
  | [c2] => rfl
  | c2 :: c3 :: rest =>
    rw [hasTriple, Bool.or_eq_false_iff] at h
    exact h.2

theorem hasTriple_append_true : ∀ (x y : Str), hasTriple x = true →
    hasTriple (x ++ y) = true
  | c1 :: c2 :: c3 :: rest, y, h => by
    simp only [List.cons_append]
    rw [hasTriple] at h ⊢
    rcases Bool.or_eq_true_iff.mp h with h | h
    · rw [h]
      simp
    · have hr := hasTriple_append_true (c2 :: c3 :: rest) y h
      simp only [List.cons_append] at hr
      rw [hr]
      simp
  | [], _, h => by cases h
  | [_], _, h => by cases h
  | [_, _], _, h => by cases h

theorem hasTriple_suffix_false : ∀ (a s : Str), hasTriple (a ++ s) = false →
    hasTriple s = false := by
  intro a
  induction a with
  | nil => intro s h; exact h
  | cons c cs ih => intro s h; exact ih s (hasTriple_tail h)

theorem hasTriple_prefix_false {x y : Str} (h : hasTriple (x ++ y) = false) :
    hasTriple x = false := by
  rcases Bool.eq_false_or_eq_true (hasTriple x) with hx | hx
  · rw [hasTriple_append_true x y hx] at h
    cases h
  · exact hx

theorem take_two_eq {cs : Str} (h : cs.take 2 = ['\n', '\n']) :
    ∃ cs₂, cs = '\n' :: '\n' :: cs₂ := by
  match cs with
  | [] => simp at h
  | [c] => simp at h
  | c1 :: c2 :: rest =>
    simp only [List.take_succ_cons, List.take_zero, List.cons_eq_cons, and_true] at h
    exact ⟨rest, by rw [h.1, h.2]⟩

theorem sub3F_head? {fuel : Nat} {x : Str}
    (h : (sub3F fuel x).head? = some '\n') : x.head? = some '\n' := by
  match fuel, x with
  | 0, [] => exact h
  | 0, c :: cs => exact h
  | fuel + 1, [] => simp [sub3F] at h
  | fuel + 1, c :: cs =>
    rw [sub3F] at h
    by_cases hc : c = '\n' ∧ cs.take 2 = ['\n', '\n']
    · rw [hc.1]; rfl
    · rw [if_neg hc] at h
      simp only [List.head?_cons, Option.some.injEq] at h
      simp [h]

theorem sub3F_take2 {fuel : Nat} {x : Str}
    (h : (sub3F fuel x).take 2 = ['\n', '\n']) : x.take 2 = ['\n', '\n'] := by
  match fuel, x with
  | 0, [] => exact h
  | 0, c :: cs => exact h
  | fuel + 1, [] => simp [sub3F] at h
  | fuel + 1, c :: cs =>
    rw [sub3F] at h
    by_cases hc : c = '\n' ∧ cs.take 2 = ['\n', '\n']
    · obtain ⟨cs₂, hcs⟩ := take_two_eq hc.2
      rw [hc.1, hcs]
      rfl
    · rw [if_neg hc] at h
      rw [List.take_succ_cons] at h
      obtain ⟨h1, h2⟩ := List.cons_eq_cons.mp h
      have hhd : (sub3F fuel cs).head? = some '\n' := by
        cases hY : sub3F fuel cs with
        | nil => rw [hY] at h2; simp at h2
        | cons a as =>
          rw [hY] at h2
          simp only [List.take_succ_cons, List.take_zero, List.cons_eq_cons] at h2
          simp [h2.1]
      have hcs := sub3F_head? hhd
      cases cs with
      | nil => simp at hcs
      | cons d ds =>
        simp only [List.head?_cons, Option.some.injEq] at hcs
        rw [h1, hcs]
        rfl

theorem head?_dropWhile_nl (cs : Str) :
    (cs.dropWhile (· = '\n')).head? ≠ some '\n' := by
  have h := List.head?_dropWhile_not (· = '\n') cs
  intro he
  rw [he] at h
  simp at h

theorem hasTriple_cons_nl {y : Str} (hh : y.head? ≠ some '\n')
    (ht : hasTriple y = false) : hasTriple ('\n' :: y) = false := by
  match y with
  | [] => rfl
  | [a] => rfl
  | a :: b :: ys =>
    rw [hasTriple, Bool.or_eq_false_iff]
    refine ⟨?_, ht⟩
    have ha : a ≠ '\n' := by
      intro he
      exact hh (by simp [he])
    simp [ha]

theorem hasTriple_two_nl {y : Str} (hh : y.head? ≠ some '\n')
    (ht : hasTriple y = false) : hasTriple ('\n' :: '\n' :: y) = false := by
  match y with
  | [] => rfl
  | a :: ys =>
    have ha : a ≠ '\n' := by
      intro he
      exact hh (by simp [he])
    rw [hasTriple, Bool.or_eq_false_iff]
    exact ⟨by simp [ha], hasTriple_cons_nl hh ht⟩

/-- The output of the `\n\n\n+` collapse never contains three consecutive
newlines. -/
theorem sub3F_hasTriple : ∀ (fuel : Nat) (x : Str), x.length ≤ fuel →
    hasTriple (sub3F fuel x) = false := by
  intro fuel
  induction fuel with
  | zero =>
    intro x hx
    have hx0 : x = [] := List.length_eq_zero.mp (Nat.le_zero.mp hx)
    subst hx0
    rfl
  | succ fuel ih =>
    intro x hx
    match x with
    | [] => rfl
    | c :: cs =>
      rw [sub3F]
      by_cases hc : c = '\n' ∧ cs.take 2 = ['\n', '\n']
      · rw [if_pos hc]
        have hlen : (cs.dropWhile (· = '\n')).length ≤ fuel := by
          have h1 := (List.dropWhile_sublist (p := (· = '\n')) (l := cs)).length_le
          simp only [List.length_cons] at hx
          omega
        have hht := ih _ hlen
        have hhd : (sub3F fuel (cs.dropWhile (· = '\n'))).head? ≠ some '\n' := by
          intro he
          exact head?_dropWhile_nl cs (sub3F_head? he)
        exact hasTriple_two_nl hhd hht
      · rw [if_neg hc]
        have hlen : cs.length ≤ fuel := by
          simp only [List.length_cons] at hx
          omega
        have hht := ih cs hlen
        cases hY : sub3F fuel cs with
        | nil => rfl
        | cons a ys =>
          cases ys with
          | nil => rfl
          | cons b ys' =>
            rw [hY] at hht
            rw [hasTriple, Bool.or_eq_false_iff]
            refine ⟨?_, hht⟩
            by_cases hcnl : c = '\n'
            · by_cases hab : a = '\n' ∧ b = '\n'
              · exfalso
                have h2 : (sub3F fuel cs).take 2 = ['\n', '\n'] := by
                  rw [hY, hab.1, hab.2]
                  rfl
                exact hc ⟨hcnl, sub3F_take2 h2⟩
              · rcases not_and_or.mp hab with h | h <;> simp [h]
            · simp [hcnl]

/-- The lines of the `\n\n\n+`-collapsed string: the first line is kept
verbatim and the remaining lines form a sublist of the input's remaining
lines (runs of blank lines are shortened, nothing else changes). -/
theorem sub3F_splitLines : ∀ (fuel : Nat) (x : Str), x.length ≤ fuel →
    ∃ r, splitLines (sub3F fuel x) = x.takeWhile notNlChar :: r ∧
      r.Sublist (splitLines x).tail := by
  intro fuel
  induction fuel with
  | zero =>
    intro x hx
    have hx0 : x = [] := List.length_eq_zero.mp (Nat.le_zero.mp hx)
    subst hx0
    exact ⟨[], rfl, List.Sublist.refl _⟩
  | succ fuel ih =>
    intro x hx
    match x with
    | [] => exact ⟨[], rfl, List.Sublist.refl _⟩
    | c :: cs =>
      rw [sub3F]
      by_cases hc : c = '\n' ∧ cs.take 2 = ['\n', '\n']
      · rw [if_pos hc]
        obtain ⟨cs₂, hcs⟩ := take_two_eq hc.2
        have hlen : (cs.dropWhile (· = '\n')).length ≤ fuel := by
          have h1 := (List.dropWhile_sublist (p := (· = '\n')) (l := cs)).length_le
          simp only [List.length_cons] at hx
          omega
        obtain ⟨r₂, hr₂, hsub₂⟩ := ih _ hlen
        have hdw : cs.dropWhile (· = '\n') = cs₂.dropWhile (· = '\n') := by
          rw [hcs]
          simp
        have hrep : cs₂.takeWhile (· = '\n') =
            List.replicate (cs₂.takeWhile (· = '\n')).length '\n' :=
          List.eq_replicate_of_mem (fun b hb => by
            simpa using List.mem_takeWhile_imp hb)
        have hcs₂ : cs₂ = List.replicate (cs₂.takeWhile (· = '\n')).length '\n' ++
            cs₂.dropWhile (· = '\n') := by
          conv_lhs => rw [← List.takeWhile_append_dropWhile (p := (· = '\n')) (l := cs₂)]
          rw [← hrep]
        have hr₂' : splitLines (sub3F fuel (cs.dropWhile (· = '\n'))) =
            (cs₂.dropWhile (· = '\n')).takeWhile notNlChar :: r₂ := by
          rw [hr₂, hdw]
        have hsub₂' : r₂.Sublist (splitLines (cs₂.dropWhile (· = '\n'))).tail := by
          rw [← hdw]
          exact hsub₂
        refine ⟨[] :: (cs₂.dropWhile (· = '\n')).takeWhile notNlChar :: r₂, ?_, ?_⟩
        · rw [show splitLines ('\n' :: '\n' :: sub3F fuel (cs.dropWhile (· = '\n'))) =
            [] :: [] :: splitLines (sub3F fuel (cs.dropWhile (· = '\n'))) by
            simp [splitLines]]
          rw [hr₂', hc.1]
          simp [List.takeWhile_cons, notNlChar]
        · rw [hc.1, hcs]
          rw [show splitLines ('\n' :: '\n' :: '\n' :: cs₂) =
            [] :: [] :: [] :: splitLines cs₂ by simp [splitLines]]
          simp only [List.tail_cons]
          have hsplit : splitLines cs₂ =
              List.replicate (cs₂.takeWhile (· = '\n')).length [] ++
              splitLines (cs₂.dropWhile (· = '\n')) := by
            conv_lhs => rw [hcs₂]
            rw [splitLines_replicate_nl_append]
          have h2 : List.Sublist
              ((cs₂.dropWhile (· = '\n')).takeWhile notNlChar :: r₂)
              (splitLines cs₂) := by
            rw [hsplit]
            refine List.Sublist.trans ?_ (List.sublist_append_right _ _)
            rw [splitLines_cons_eq (cs₂.dropWhile (· = '\n'))]
            rw [headI_splitLines]
            exact List.Sublist.cons₂ _ hsub₂'
          exact List.Sublist.cons₂ _ (h2.cons _)
      · rw [if_neg hc]
        have hlen : cs.length ≤ fuel := by
          simp only [List.length_cons] at hx
          omega
        obtain ⟨r₂, hr₂, hsub₂⟩ := ih cs hlen
        by_cases hcnl : c = '\n'
        · subst hcnl
          rw [show splitLines ('\n' :: sub3F fuel cs) =
            [] :: splitLines (sub3F fuel cs) by simp [splitLines]]
          rw [hr₂]
          refine ⟨cs.takeWhile notNlChar :: r₂, ?_, ?_⟩
          · simp [List.takeWhile_cons, notNlChar]
          · rw [show splitLines ('\n' :: cs) = [] :: splitLines cs by simp [splitLines]]
            simp only [List.tail_cons]
            rw [splitLines_cons_eq cs, headI_splitLines]
            exact List.Sublist.cons₂ _ hsub₂
        · rw [show splitLines (c :: sub3F fuel cs) =
            (c :: (splitLines (sub3F fuel cs)).headI) ::
              (splitLines (sub3F fuel cs)).tail by simp [splitLines, hcnl]]
          rw [hr₂]
          simp only [List.headI_cons, List.tail_cons]
          refine ⟨r₂, ?_, ?_⟩
          · simp [List.takeWhile_cons, notNlChar, hcnl]
          · rw [show splitLines (c :: cs) =
              (c :: (splitLines cs).headI) :: (splitLines cs).tail by
              simp [splitLines, hcnl]]
            simp only [List.tail_cons]
            exact hsub₂

/-! ## Line-stripping is preserved by the cleanup pipeline -/

/-- Every line of the string is free of leading and trailing whitespace. -/
def linesStripped (t : Str) : Bool := (splitLines t).all strippedLine

theorem rstripWs_cons (c : Char) (cs : Str) :
    rstripWs (c :: cs) =
      if rstripWs cs = [] && isPySpace c then [] else c :: rstripWs cs := rfl

theorem rstripWs_append_exists : ∀ (x : Str), ∃ w, x = rstripWs x ++ w
  | [] => ⟨[], rfl⟩
  | c :: cs => by
    obtain ⟨w, hw⟩ := rstripWs_append_exists cs
    rw [rstripWs_cons]
    by_cases h : (rstripWs cs = [] && isPySpace c) = true
    · rw [if_pos h]
      exact ⟨c :: cs, rfl⟩
    · rw [if_neg h]
      exact ⟨w, by rw [List.cons_append, ← hw]⟩

theorem hasTriple_stripChars {t : Str} (h : hasTriple t = false) :
    hasTriple (stripChars t) = false := by
  have h1 : hasTriple (t.dropWhile isPySpace) = false := by
    refine hasTriple_suffix_false (t.takeWhile isPySpace) _ ?_
    rw [List.takeWhile_append_dropWhile]
    exact h
  obtain ⟨w, hw⟩ := rstripWs_append_exists (t.dropWhile isPySpace)
  refine hasTriple_prefix_false (y := w) ?_
  rw [stripChars, ← hw]
  exact h1

theorem splitLines_lineStrip (t : Str) :
    splitLines (lineStrip t) = (splitLines t).map stripChars := by
  rw [lineStrip]
  refine splitLines_joinLines ?_ ?_
  · simp [splitLines_ne_nil t]
  · intro l hl
    obtain ⟨l', hl', rfl⟩ := List.mem_map.mp hl
    intro hc
    exact nl_not_mem_splitLines hl' (mem_stripChars hc)

theorem linesStripped_lineStrip (t : Str) : linesStripped (lineStrip t) = true := by
  rw [linesStripped, List.all_eq_true]
  intro l hl
  rw [splitLines_lineStrip] at hl
  obtain ⟨l', _, rfl⟩ := List.mem_map.mp hl
  exact strippedLine_stripChars l'

theorem linesStripped_sub3 {t : Str} (h : linesStripped t = true) :
    linesStripped (sub3 t) = true := by
  obtain ⟨r, hr, hsub⟩ := sub3F_splitLines t.length t (Nat.le_refl _)
  rw [linesStripped, List.all_eq_true]
  intro l hl
  rw [sub3] at hl
  rw [hr] at hl
  rw [linesStripped, List.all_eq_true] at h
  rcases List.mem_cons.mp hl with hl | hl
  · subst hl
    apply h
    have heq := splitLines_cons_eq t
    rw [headI_splitLines] at heq
    rw [heq]
    exact List.mem_cons_self _ _
  · exact h _ (List.mem_of_mem_tail (hsub.subset hl))

theorem splitLines_dropWhile_sublist {t : Str} (h : linesStripped t = true) :
    (splitLines (t.dropWhile isPySpace)).Sublist (splitLines t) := by
  induction t with
  | nil => simp
  | cons c cs ih =>
    rw [linesStripped, List.all_eq_true] at h
    by_cases hws : isPySpace c = true
    · by_cases hnl : c = '\n'
      · subst hnl
        rw [List.dropWhile_cons_of_pos hws]
        rw [show splitLines ('\n' :: cs) = [] :: splitLines cs by simp [splitLines]]
        refine (ih ?_).cons _
        rw [linesStripped, List.all_eq_true]
        intro l hl
        refine h l ?_
        rw [show splitLines ('\n' :: cs) = [] :: splitLines cs by simp [splitLines]]
        exact List.mem_cons_of_mem _ hl
      · exfalso
        have hfl : (c :: (splitLines cs).headI) ∈ splitLines (c :: cs) := by
          rw [show splitLines (c :: cs) =
            (c :: (splitLines cs).headI) :: (splitLines cs).tail by
            simp [splitLines, hnl]]
          exact List.mem_cons_self _ _
        have hx := h _ hfl
        rw [strippedLine, Bool.and_eq_true] at hx
        have := hx.1
        rw [List.head?_cons] at this
        simp [noWsEnd, hws] at this
    · rw [List.dropWhile_cons_of_neg hws]

/-- The part of line-strippedness that survives consuming characters from
the front: every line ends cleanly, and every line except possibly the
first is fully stripped. -/
def rstrippedLines (t : Str) : Bool :=
  ((splitLines t).all fun l => noWsEnd l.getLast?) && (splitLines t).tail.all strippedLine

theorem rstrippedLines_of_linesStripped {t : Str} (h : linesStripped t = true) :
    rstrippedLines t = true := by
  rw [linesStripped, List.all_eq_true] at h
  rw [rstrippedLines, Bool.and_eq_true]
  constructor
  · rw [List.all_eq_true]
    intro l hl
    have hx := h l hl
    rw [strippedLine, Bool.and_eq_true] at hx
    exact hx.2
  · rw [List.all_eq_true]
    intro l hl
    exact h l (List.mem_of_mem_tail hl)

theorem rstrippedLines_cons {c : Char} {cs : Str}
    (h : rstrippedLines (c :: cs) = true) : rstrippedLines cs = true := by
  rw [rstrippedLines, Bool.and_eq_true, List.all_eq_true, List.all_eq_true] at h ⊢
  obtain ⟨h1, h2⟩ := h
  by_cases hnl : c = '\n'
  · subst hnl
    have hsl : splitLines ('\n' :: cs) = [] :: splitLines cs := by simp [splitLines]
    rw [hsl] at h1 h2
    simp only [List.tail_cons] at h2
    constructor
    · intro l hl
      have hx := h2 l hl
      rw [strippedLine, Bool.and_eq_true] at hx
      exact hx.2
    · intro l hl
      exact h2 l (List.mem_of_mem_tail hl)
  · have hsl : splitLines (c :: cs) =
        (c :: (splitLines cs).headI) :: (splitLines cs).tail := by
      simp [splitLines, hnl]
    rw [hsl] at h1 h2
    simp only [List.tail_cons] at h2
    constructor
    · intro l hl
      rw [splitLines_cons_eq cs] at hl
      rcases List.mem_cons.mp hl with hl | hl
      · subst hl
        cases hLI : (splitLines cs).headI with
        | nil => rfl
        | cons d ds =>
          have hfst := h1 _ (List.mem_cons_self _ _)
          rw [hLI] at hfst
          rw [show ((c :: d :: ds).getLast? : Option Char) =
            (d :: ds).getLast? from List.getLast?_cons_cons] at hfst
          exact hfst
      · have hx := h2 l hl
        rw [strippedLine, Bool.and_eq_true] at hx
        exact hx.2
    · intro l hl
      rw [splitLines_cons_eq cs] at hl
      simp only [List.tail_cons] at hl
      exact h2 l hl

theorem splitLines_replicate_nl (k : Nat) :
    splitLines (List.replicate k '\n') = List.replicate (k + 1) [] := by
  have h := splitLines_replicate_nl_append k []
  rw [List.append_nil] at h
  rw [h, List.replicate_succ']
  rfl

theorem splitLines_append_replicate_nl (a : Str) (k : Nat) :
    splitLines (a ++ List.replicate k '\n') = splitLines a ++ List.replicate k [] := by
  induction k with
  | zero => simp
  | succ j ih =>
    rw [List.replicate_succ', ← List.append_assoc, splitLines_append_single_nl, ih,
      List.replicate_succ', List.append_assoc]

theorem rstripWs_decomp : ∀ (t : Str), rstrippedLines t = true →
    ∃ k, t = rstripWs t ++ List.replicate k '\n'
  | [], _ => ⟨0, rfl⟩
  | c :: cs, h => by
    obtain ⟨k, hk⟩ := rstripWs_decomp cs (rstrippedLines_cons h)
    rw [rstripWs_cons]
    by_cases hb : (rstripWs cs = [] && isPySpace c) = true
    · rw [if_pos hb]
      rw [Bool.and_eq_true, decide_eq_true_eq] at hb
      have hcs : cs = List.replicate k '\n' := by
        rw [hk, hb.1, List.nil_append]
      have hcnl : c = '\n' := by
        by_contra hcnl
        have hLI : (splitLines cs).headI = [] := by
          rw [hcs, splitLines_replicate_nl, List.replicate_succ]
          rfl
        have hfl : [c] ∈ splitLines (c :: cs) := by
          rw [show splitLines (c :: cs) =
            (c :: (splitLines cs).headI) :: (splitLines cs).tail by
            simp [splitLines, hcnl]]
          rw [hLI]
          exact List.mem_cons_self _ _
        rw [rstrippedLines, Bool.and_eq_true, List.all_eq_true, List.all_eq_true] at h
        have hx := h.1 _ hfl
        simp [noWsEnd, hb.2] at hx
      refine ⟨k + 1, ?_⟩
      rw [List.nil_append, hcs, hcnl, List.replicate_succ]
    · rw [if_neg hb]
      exact ⟨k, by rw [List.cons_append, ← hk]⟩

theorem linesStripped_stripChars {t : Str} (h : linesStripped t = true) :
    linesStripped (stripChars t) = true := by
  have h1 : linesStripped (t.dropWhile isPySpace) = true := by
    rw [linesStripped, List.all_eq_true]
    intro l hl
    exact (List.all_eq_true.mp h) l ((splitLines_dropWhile_sublist h).subset hl)
  have hq : rstrippedLines (t.dropWhile isPySpace) = true :=
    rstrippedLines_of_linesStripped h1
  obtain ⟨k, hk⟩ := rstripWs_decomp _ hq
  rw [stripChars, linesStripped, List.all_eq_true]
  intro l hl
  have hmem : l ∈ splitLines (t.dropWhile isPySpace) := by
    rw [hk, splitLines_append_replicate_nl]
    exact List.mem_append_left _ hl
  exact (List.all_eq_true.mp h1) l hmem

/-- The cleanup pipeline's guarantees: no three consecutive newlines, every
line stripped, and the whole string stripped. -/
theorem cleanText_normalized (t : Str) :
    hasTriple (cleanText t) = false ∧ linesStripped (cleanText t) = true ∧
      stripChars (cleanText t) = cleanText t := by
  have hls := linesStripped_lineStrip (sub1 t)
  have h3 := linesStripped_sub3 hls
  have htr : hasTriple (sub3 (lineStrip (sub1 t))) = false := by
    rw [sub3]
    exact sub3F_hasTriple _ _ (Nat.le_refl _)
  exact ⟨hasTriple_stripChars htr, linesStripped_stripChars h3, stripChars_idem _⟩

/-! ## Lemmas about the element tree -/

/-- Structural induction over `Node` with the hypothesis available for
every child. -/
theorem node_ind {P : Node → Prop} (ht : ∀ s, P (.text s))
    (he : ∀ t cs, (∀ c ∈ cs, P c) → P (.elem t cs)) : ∀ n, P n
  | .text s => ht s
  | .elem t cs => he t cs (fun c hc => node_ind ht he c)
termination_by n => sizeOf n
decreasing_by
  have := List.sizeOf_lt_of_mem hc
  simp only [Node.elem.sizeOf_spec]
  omega

theorem head?_mem {α : Type} {l : List α} {a : α} (h : l.head? = some a) : a ∈ l := by
  cases l with
  | nil => cases h
  | cons x xs =>
    rw [List.head?_cons, Option.some.injEq] at h
    rw [← h]
    exact List.mem_cons_self _ _

theorem mem_allNodesL_iff {m : Node} : ∀ {ns : List Node},
    m ∈ allNodesL ns ↔ ∃ n ∈ ns, m ∈ allNodesN n := by
  intro ns
  induction ns with
  | nil => simp [allNodesL]
  | cons n ns ih =>
    rw [show allNodesL (n :: ns) = allNodesN n ++ allNodesL ns from rfl]
    rw [List.mem_append, ih]
    constructor
    · rintro (h | ⟨n', hn', hm⟩)
      · exact ⟨n, List.mem_cons_self _ _, h⟩
      · exact ⟨n', List.mem_cons_of_mem _ hn', hm⟩
    · rintro ⟨n', hn', hm⟩
      rcases List.mem_cons.mp hn' with rfl | hn'
      · exact Or.inl hm
      · exact Or.inr ⟨n', hn', hm⟩

theorem self_mem_allNodesN (n : Node) : n ∈ allNodesN n := by
  cases n with
  | text s => exact List.mem_cons_self _ _
  | elem t cs => exact List.mem_cons_self _ _

theorem allNodesN_trans : ∀ (n : Node), ∀ m ∈ allNodesN n, ∀ x ∈ allNodesN m,
    x ∈ allNodesN n := by
  refine node_ind ?_ ?_
  · intro s m hm x hx
    rw [show allNodesN (.text s) = [.text s] from rfl] at hm ⊢
    rw [List.mem_singleton] at hm
    subst hm
    exact hx
  · intro t cs ih m hm x hx
    rw [show allNodesN (.elem t cs) = .elem t cs :: allNodesL cs from rfl] at hm ⊢
    rcases List.mem_cons.mp hm with rfl | hm
    · exact hx
    · obtain ⟨c, hc, hmc⟩ := mem_allNodesL_iff.mp hm
      exact List.mem_cons_of_mem _ (mem_allNodesL_iff.mpr ⟨c, hc, ih c hc m hmc x hx⟩)

theorem textsOf_sub {m n : Node} (h : m ∈ allNodesN n) :
    ∀ s ∈ textsOf m, s ∈ textsOf n := by
  intro s hs
  rw [textsOf, List.mem_filterMap] at hs ⊢
  obtain ⟨x, hx, hsx⟩ := hs
  exact ⟨x, allNodesN_trans n m h x hx, hsx⟩

theorem mem_of_descendants {m n : Node} (h : m ∈ descendants n) : m ∈ allNodesN n := by
  rw [descendants] at h
  exact List.mem_of_mem_tail h

theorem find_mem {tags : List String} {n m : Node} (h : find tags n = some m) :
    m ∈ allNodesN n :=
  mem_of_descendants ((List.filter_subset' _) (head?_mem h))

theorem find_all_mem {tags : List String} {n m : Node} (h : m ∈ find_all tags n) :
    m ∈ allNodesN n :=
  mem_of_descendants ((List.filter_subset' _) h)

theorem tagString_mem_textsOf : ∀ (n : Node) (s : Str), tagString n = some s →
    s ∈ textsOf n
  | .text s', s, h => by
    rw [tagString, Option.some.injEq] at h
    subst h
    rw [textsOf]
    simp [allNodesN, textOf]
  | .elem t [c], s, h => by
    rw [tagString] at h
    have hm := tagString_mem_textsOf c s h
    rw [textsOf] at hm ⊢
    rw [List.mem_filterMap] at hm ⊢
    obtain ⟨x, hx, hsx⟩ := hm
    refine ⟨x, ?_, hsx⟩
    rw [show allNodesN (.elem t [c]) = .elem t [c] :: allNodesL [c] from rfl]
    refine List.mem_cons_of_mem _ ?_
    exact mem_allNodesL_iff.mpr ⟨c, List.mem_cons_self _ _, hx⟩
  | .elem _ [], _, h => by cases h
  | .elem _ (_ :: _ :: _), _, h => by cases h

theorem mem_get_text_strip {c : Char} {n : Node} (h : c ∈ get_text_strip n) :
    ∃ s ∈ textsOf n, c ∈ s := by
  rw [get_text_strip] at h
  obtain ⟨l, hl, hc⟩ := List.mem_flatten.mp h
  obtain ⟨s, hs, rfl⟩ := List.mem_map.mp hl
  exact ⟨s, hs, mem_stripChars hc⟩

/-- bs4 `get_text(strip=True)` output has no leading or trailing whitespace:
it is a concatenation of individually stripped pieces. -/
theorem get_text_strip_stripped (n : Node) :
    stripChars (get_text_strip n) = get_text_strip n := by
  rw [stripChars_eq_self_iff, get_text_strip]
  generalize (textsOf n) = ls
  induction ls with
  | nil => rfl
  | cons l ls ih =>
    rw [List.map_cons, List.flatten_cons, strippedLine, Bool.and_eq_true]
    rw [strippedLine, Bool.and_eq_true] at ih
    constructor
    · rw [List.head?_append]
      cases hh : (stripChars l).head? with
      | none => simpa [hh] using ih.1
      | some a =>
        have := noWsEnd_head_stripChars l
        rw [hh] at this
        simpa [hh] using this
    · rw [List.getLast?_append]
      cases hh : ((ls.map stripChars).flatten).getLast? with
      | none =>
        have := noWsEnd_getLast_stripChars l
        simpa [hh] using this
      | some a => simpa [hh] using ih.2

/-! ## Lemmas about the decompose step -/

theorem scrubL_mem : ∀ {ns : List Node} {m : Node},
    m ∈ scrubL ns ↔ ∃ n ∈ ns, scrubN n = some m := by
  intro ns
  induction ns with
  | nil => intro m; simp [scrubL]
  | cons n ns ih =>
    intro m
    rw [show scrubL (n :: ns) = (match scrubN n with
      | some m' => m' :: scrubL ns
      | none => scrubL ns) from rfl]
    cases h : scrubN n with
    | some m' =>
      rw [List.mem_cons, ih]
      constructor
      · rintro (rfl | ⟨n', hn', hm⟩)
        · exact ⟨n, List.mem_cons_self _ _, h⟩
        · exact ⟨n', List.mem_cons_of_mem _ hn', hm⟩
      · rintro ⟨n', hn', hm⟩
        rcases List.mem_cons.mp hn' with rfl | hn'
        · rw [h, Option.some.injEq] at hm
          exact Or.inl hm.symm
        · exact Or.inr ⟨n', hn', hm⟩
    | none =>
      rw [ih]
      constructor
      · rintro ⟨n', hn', hm⟩
        exact ⟨n', List.mem_cons_of_mem _ hn', hm⟩
      · rintro ⟨n', hn', hm⟩
        rcases List.mem_cons.mp hn' with rfl | hn'
        · rw [h] at hm
          cases hm
        · exact ⟨n', hn', hm⟩

theorem scrubN_no_bad : ∀ (n : Node), ∀ n', scrubN n = some n' →
    ∀ m ∈ allNodesN n', isTag badTags m = false := by
  refine node_ind ?_ ?_
  · intro s n' h m hm
    rw [show scrubN (.text s) = some (.text s) from rfl, Option.some.injEq] at h
    subst h
    rw [show allNodesN (.text s) = [.text s] from rfl, List.mem_singleton] at hm
    subst hm
    rfl
  · intro t cs ih n' h m hm
    rw [show scrubN (.elem t cs) = (if badTags.contains t then none
      else some (.elem t (scrubL cs))) from rfl] at h
    by_cases hb : badTags.contains t = true
    · rw [if_pos hb] at h
      cases h
    · rw [if_neg hb] at h
      rw [Option.some.injEq] at h
      subst h
      rw [show allNodesN (.elem t (scrubL cs)) =
        .elem t (scrubL cs) :: allNodesL (scrubL cs) from rfl] at hm
      rcases List.mem_cons.mp hm with rfl | hm
      · show badTags.contains t = false
        exact Bool.eq_false_iff.mpr hb
      · obtain ⟨c', hc', hmc⟩ := mem_allNodesL_iff.mp hm
        obtain ⟨c, hc, hsc⟩ := scrubL_mem.mp hc'
        exact ih c hc c' hsc m hmc

theorem scrubN_texts_sub : ∀ (n : Node), ∀ n', scrubN n = some n' →
    ∀ s ∈ textsOf n', s ∈ textsOf n := by
  refine node_ind ?_ ?_
  · intro s n' h x hx
    rw [show scrubN (.text s) = some (.text s) from rfl, Option.some.injEq] at h
    subst h
    exact hx
  · intro t cs ih n' h x hx
    rw [show scrubN (.elem t cs) = (if badTags.contains t then none
      else some (.elem t (scrubL cs))) from rfl] at h
    by_cases hb : badTags.contains t = true
    · rw [if_pos hb] at h
      cases h
    · rw [if_neg hb] at h
      rw [Option.some.injEq] at h
      subst h
      rw [textsOf, List.mem_filterMap] at hx
      obtain ⟨y, hy, hxy⟩ := hx
      rw [show allNodesN (.elem t (scrubL cs)) =
        .elem t (scrubL cs) :: allNodesL (scrubL cs) from rfl] at hy
      rcases List.mem_cons.mp hy with rfl | hy
      · cases hxy
      · obtain ⟨c', hc', hmc⟩ := mem_allNodesL_iff.mp hy
        obtain ⟨c, hc, hsc⟩ := scrubL_mem.mp hc'
        have hx' : x ∈ textsOf c' := by
          rw [textsOf, List.mem_filterMap]
          exact ⟨y, hmc, hxy⟩
        have hxc : x ∈ textsOf c := ih c hc c' hsc x hx'
        refine textsOf_sub ?_ x hxc
        rw [show allNodesN (.elem t cs) = .elem t cs :: allNodesL cs from rfl]
        exact List.mem_cons_of_mem _
          (mem_allNodesL_iff.mpr ⟨c, hc, self_mem_allNodesN c⟩)

theorem decomposeAll_no_bad (d : Node) :
    ∀ m ∈ descendants (decomposeAll d), isTag badTags m = false := by
  cases d with
  | text s => intro m hm; cases hm
  | elem t cs =>
    intro m hm
    rw [show decomposeAll (.elem t cs) = .elem t (scrubL cs) from rfl] at hm
    rw [descendants, show allNodesN (Node.elem t (scrubL cs)) =
      .elem t (scrubL cs) :: allNodesL (scrubL cs) from rfl, List.tail_cons] at hm
    obtain ⟨c', hc', hmc⟩ := mem_allNodesL_iff.mp hm
    obtain ⟨c, hc, hsc⟩ := scrubL_mem.mp hc'
    exact scrubN_no_bad c c' hsc m hmc

/-- After the decompose loop, no element with a removed tag remains anywhere
in the tree. -/
theorem find_all_badTags_nil (d : Node) : find_all badTags (decomposeAll d) = [] := by
  rw [find_all, List.filter_eq_nil_iff]
  intro m hm
  rw [decomposeAll_no_bad d m hm]
  simp

theorem decomposeAll_texts_sub (d : Node) :
    ∀ s ∈ textsOf (decomposeAll d), s ∈ textsOf d := by
  cases d with
  | text s => intro x hx; exact hx
  | elem t cs =>
    intro x hx
    rw [show decomposeAll (.elem t cs) = .elem t (scrubL cs) from rfl] at hx
    rw [textsOf, List.mem_filterMap] at hx
    obtain ⟨y, hy, hxy⟩ := hx
    rw [show allNodesN (Node.elem t (scrubL cs)) =
      .elem t (scrubL cs) :: allNodesL (scrubL cs) from rfl] at hy
    rcases List.mem_cons.mp hy with rfl | hy
    · cases hxy
    · obtain ⟨c', hc', hmc⟩ := mem_allNodesL_iff.mp hy
      obtain ⟨c, hc, hsc⟩ := scrubL_mem.mp hc'
      have hx' : x ∈ textsOf c' := by
        rw [textsOf, List.mem_filterMap]
        exact ⟨y, hmc, hxy⟩
      have hxc : x ∈ textsOf c := scrubN_texts_sub c c' hsc x hx'
      refine textsOf_sub ?_ x hxc
      rw [show allNodesN (.elem t cs) = .elem t cs :: allNodesL cs from rfl]
      exact List.mem_cons_of_mem _
        (mem_allNodesL_iff.mpr ⟨c, hc, self_mem_allNodesN c⟩)

/-! ## Lemmas about the two emission passes -/

theorem hpPass_cons (el : Node) (els : List Node) (seen : List Str) :
    hpPass (el :: els) seen =
      if get_text_strip el ≠ [] ∧ get_text_strip el ∉ seen then
        (⟨if nameStartsH (tagOf el) then SegKind.heading else SegKind.paragraph,
           get_text_strip el⟩ :: (hpPass els (get_text_strip el :: seen)).1,
         (hpPass els (get_text_strip el :: seen)).2)
      else hpPass els seen := rfl

theorem divPass_cons (el : Node) (els : List Node) (seen : List Str) :
    divPass (el :: els) seen =
      if (find hpTags el).isSome then divPass els seen
      else if get_text_strip el ≠ [] ∧ 50 < (get_text_strip el).length ∧
          get_text_strip el ∉ seen then
        (⟨SegKind.textblock, get_text_strip el⟩ ::
          (divPass els (get_text_strip el :: seen)).1,
         (divPass els (get_text_strip el :: seen)).2)
      else divPass els seen := rfl

theorem hpPass_spec (els : List Node) : ∀ (seen : List Str),
    ((hpPass els seen).1.map Seg.text).Nodup ∧
    (∀ s ∈ (hpPass els seen).1.map Seg.text, s ∉ seen) ∧
    (∀ s ∈ seen, s ∈ (hpPass els seen).2) ∧
    (∀ s ∈ (hpPass els seen).1.map Seg.text, s ∈ (hpPass els seen).2) := by
  induction els with
  | nil =>
    intro seen
    refine ⟨List.nodup_nil, ?_, ?_, ?_⟩ <;> simp [hpPass]
  | cons el els ih =>
    intro seen
    rw [hpPass_cons]
    by_cases hc : get_text_strip el ≠ [] ∧ get_text_strip el ∉ seen
    · rw [if_pos hc]
      obtain ⟨ih1, ih2, ih3, ih4⟩ := ih (get_text_strip el :: seen)
      simp only [List.map_cons]
      refine ⟨?_, ?_, ?_, ?_⟩
      · rw [List.nodup_cons]
        exact ⟨fun hmem => (ih2 _ hmem) (List.mem_cons_self _ _), ih1⟩
      · intro s hs
        rcases List.mem_cons.mp hs with rfl | hs
        · exact hc.2
        · exact fun hseen => (ih2 s hs) (List.mem_cons_of_mem _ hseen)
      · intro s hs
        exact ih3 s (List.mem_cons_of_mem _ hs)
      · intro s hs
        rcases List.mem_cons.mp hs with rfl | hs
        · exact ih3 _ (List.mem_cons_self _ _)
        · exact ih4 s hs
    · rw [if_neg hc]
      exact ih seen

theorem divPass_spec (els : List Node) : ∀ (seen : List Str),
    ((divPass els seen).1.map Seg.text).Nodup ∧
    (∀ s ∈ (divPass els seen).1.map Seg.text, s ∉ seen) ∧
    (∀ s ∈ seen, s ∈ (divPass els seen).2) ∧
    (∀ s ∈ (divPass els seen).1.map Seg.text, s ∈ (divPass els seen).2) := by
  induction els with
  | nil =>
    intro seen
    refine ⟨List.nodup_nil, ?_, ?_, ?_⟩ <;> simp [divPass]
  | cons el els ih =>
    intro seen
    rw [divPass_cons]
    by_cases hf : (find hpTags el).isSome = true
    · rw [if_pos hf]
      exact ih seen
    · rw [if_neg hf]
      by_cases hc : get_text_strip el ≠ [] ∧ 50 < (get_text_strip el).length ∧
          get_text_strip el ∉ seen
      · rw [if_pos hc]
        obtain ⟨ih1, ih2, ih3, ih4⟩ := ih (get_text_strip el :: seen)
        simp only [List.map_cons]
        refine ⟨?_, ?_, ?_, ?_⟩
        · rw [List.nodup_cons]
          exact ⟨fun hmem => (ih2 _ hmem) (List.mem_cons_self _ _), ih1⟩
        · intro s hs
          rcases List.mem_cons.mp hs with rfl | hs
          · exact hc.2.2
          · exact fun hseen => (ih2 s hs) (List.mem_cons_of_mem _ hseen)
        · intro s hs
          exact ih3 s (List.mem_cons_of_mem _ hs)
        · intro s hs
          rcases List.mem_cons.mp hs with rfl | hs
          · exact ih3 _ (List.mem_cons_self _ _)
          · exact ih4 s hs
      · rw [if_neg hc]
        exact ih seen

theorem hpPass_texts_sublist (els : List Node) : ∀ (seen : List Str),
    ((hpPass els seen).1.map Seg.text).Sublist (els.map get_text_strip) := by
  induction els with
  | nil => intro seen; simp [hpPass]
  | cons el els ih =>
    intro seen
    rw [hpPass_cons]
    by_cases hc : get_text_strip el ≠ [] ∧ get_text_strip el ∉ seen
    · rw [if_pos hc]
      simp only [List.map_cons]
      exact List.Sublist.cons₂ _ (ih _)
    · rw [if_neg hc]
      exact (ih seen).cons _

theorem divPass_texts_sublist (els : List Node) : ∀ (seen : List Str),
    ((divPass els seen).1.map Seg.text).Sublist (els.map get_text_strip) := by
  induction els with
  | nil => intro seen; simp [divPass]
  | cons el els ih =>
    intro seen
    rw [divPass_cons]
    by_cases hf : (find hpTags el).isSome = true
    · rw [if_pos hf]
      exact (ih seen).cons _
    · rw [if_neg hf]
      by_cases hc : get_text_strip el ≠ [] ∧ 50 < (get_text_strip el).length ∧
          get_text_strip el ∉ seen
      · rw [if_pos hc]
        simp only [List.map_cons]
        exact List.Sublist.cons₂ _ (ih _)
      · rw [if_neg hc]
        exact (ih seen).cons _

theorem hpPass_kinds (els : List Node) : ∀ (seen : List Str),
    ∀ sg ∈ (hpPass els seen).1,
      sg.kind = SegKind.heading ∨ sg.kind = SegKind.paragraph := by
  induction els with
  | nil => intro seen sg hsg; simp [hpPass] at hsg
  | cons el els ih =>
    intro seen sg hsg
    rw [hpPass_cons] at hsg
    by_cases hc : get_text_strip el ≠ [] ∧ get_text_strip el ∉ seen
    · rw [if_pos hc] at hsg
      rcases List.mem_cons.mp hsg with rfl | hsg
      · by_cases hh : nameStartsH (tagOf el) = true
        · rw [if_pos hh]
          exact Or.inl rfl
        · rw [if_neg hh]
          exact Or.inr rfl
      · exact ih _ sg hsg
    · rw [if_neg hc] at hsg
      exact ih seen sg hsg

theorem divPass_kinds (els : List Node) : ∀ (seen : List Str),
    ∀ sg ∈ (divPass els seen).1, sg.kind = SegKind.textblock := by
  induction els with
  | nil => intro seen sg hsg; simp [divPass] at hsg
  | cons el els ih =>
    intro seen sg hsg
    rw [divPass_cons] at hsg
    by_cases hf : (find hpTags el).isSome = true
    · rw [if_pos hf] at hsg
      exact ih seen sg hsg
    · rw [if_neg hf] at hsg
      by_cases hc : get_text_strip el ≠ [] ∧ 50 < (get_text_strip el).length ∧
          get_text_strip el ∉ seen
      · rw [if_pos hc] at hsg
        rcases List.mem_cons.mp hsg with rfl | hsg
        · rfl
        · exact ih _ sg hsg
      · rw [if_neg hc] at hsg
        exact ih seen sg hsg

/-- The function `extractSegments` unfolded once (definitional). -/
theorem extractSegments_def (doc : Node) :
    extractSegments doc =
      match titleStep (decomposeAll doc) with
      | .error e => .error e
      | .ok title =>
        .ok ((if title ≠ [] then ([⟨SegKind.title, title⟩], [title])
              else (([] : List Seg), ([] : List Str))).1 ++
          (hpPass (find_all hpTags (main_content (decomposeAll doc)))
            (if title ≠ [] then ([⟨SegKind.title, title⟩], [title])
              else (([] : List Seg), ([] : List Str))).2).1 ++
          (divPass (find_all ["div"] (main_content (decomposeAll doc)))
            (hpPass (find_all hpTags (main_content (decomposeAll doc)))
              (if title ≠ [] then ([⟨SegKind.title, title⟩], [title])
                else (([] : List Seg), ([] : List Str))).2).2).1) := rfl

/-! ## Decomposing a successful extraction -/

theorem titleStep_ok_ne_nil {soup : Node} {title : Str}
    (h : titleStep soup = .ok title) (hne : title ≠ []) :
    ∃ tEl s, find ["title"] soup = some tEl ∧ tagString tEl = some s ∧
      title = stripChars s := by
  rw [titleStep] at h
  split at h
  · injection h with h
    exact absurd h.symm hne
  · rename_i tEl heq
    split at h
    · split at h
      · cases h
      · rename_i s hts
        injection h with h
        exact ⟨tEl, s, heq, hts, h.symm⟩
    · injection h with h
      exact absurd h.symm hne

theorem textsOf_main_content_sub (soup : Node) :
    ∀ s ∈ textsOf (main_content soup), s ∈ textsOf soup := by
  rw [main_content]
  split
  · rename_i m heq
    split
    · exact textsOf_sub (find_mem heq)
    · intro s hs
      exact hs
  · intro s hs
    exact hs

/-- No two emitted segments carry the same text: the seen-set registration
suppresses every later exact duplicate, across all passes. -/
theorem extractSegments_nodup {doc : Node} {segs : List Seg}
    (h : extractSegments doc = .ok segs) : (segs.map Seg.text).Nodup := by
  rw [extractSegments_def] at h
  split at h
  · cases h
  · rename_i title heq
    by_cases htl : title ≠ []
    · rw [if_pos htl] at h
      injection h with h
      subst h
      obtain ⟨h1, h2, h3, h4⟩ :=
        hpPass_spec (find_all hpTags (main_content (decomposeAll doc))) [title]
      obtain ⟨d1, d2, d3, d4⟩ :=
        divPass_spec (find_all ["div"] (main_content (decomposeAll doc)))
          (hpPass (find_all hpTags (main_content (decomposeAll doc))) [title]).2
      rw [List.map_append, List.map_append, List.append_assoc, List.nodup_append]
      refine ⟨by simp, ?_, ?_⟩
      · rw [List.nodup_append]
        refine ⟨h1, d1, ?_⟩
        intro a ha hd
        exact (d2 a hd) (h4 a ha)
      · intro a ha
        simp only [List.map_cons, List.map_nil, List.mem_singleton] at ha
        subst ha
        rw [List.mem_append]
        rintro (hm | hm)
        · exact (h2 _ hm) (List.mem_cons_self _ _)
        · exact (d2 _ hm) (h3 _ (List.mem_cons_self _ _))
    · rw [if_neg htl] at h
      injection h with h
      subst h
      obtain ⟨h1, h2, h3, h4⟩ :=
        hpPass_spec (find_all hpTags (main_content (decomposeAll doc))) []
      obtain ⟨d1, d2, d3, d4⟩ :=
        divPass_spec (find_all ["div"] (main_content (decomposeAll doc)))
          (hpPass (find_all hpTags (main_content (decomposeAll doc))) []).2
      rw [List.map_append, List.map_append]
      simp only [List.map_nil, List.nil_append]
      rw [List.nodup_append]
      refine ⟨h1, d1, ?_⟩
      intro a ha hd
      exact (d2 a hd) (h4 a ha)

/-- Every character of every emitted segment comes from a text node that
survived the decompose step. -/
theorem extractSegments_text_chars {doc : Node} {segs : List Seg}
    (h : extractSegments doc = .ok segs) :
    ∀ sg ∈ segs, ∀ c ∈ sg.text, c ∈ (textsOf (decomposeAll doc)).flatten := by
  have hp_case : ∀ (seen : List Str) (sg : Seg),
      sg ∈ (hpPass (find_all hpTags (main_content (decomposeAll doc))) seen).1 →
      ∀ c ∈ sg.text, c ∈ (textsOf (decomposeAll doc)).flatten := by
    intro seen sg hsg c hc
    have hmem : sg.text ∈
        (find_all hpTags (main_content (decomposeAll doc))).map get_text_strip :=
      (hpPass_texts_sublist _ seen).subset (List.mem_map_of_mem _ hsg)
    obtain ⟨el, hel, hts⟩ := List.mem_map.mp hmem
    rw [← hts] at hc
    obtain ⟨s, hs, hcs⟩ := mem_get_text_strip hc
    have hs2 : s ∈ textsOf (main_content (decomposeAll doc)) :=
      textsOf_sub (find_all_mem hel) s hs
    exact List.mem_flatten_of_mem (textsOf_main_content_sub _ s hs2) hcs
  have dv_case : ∀ (seen : List Str) (sg : Seg),
      sg ∈ (divPass (find_all ["div"] (main_content (decomposeAll doc))) seen).1 →
      ∀ c ∈ sg.text, c ∈ (textsOf (decomposeAll doc)).flatten := by
    intro seen sg hsg c hc
    have hmem : sg.text ∈
        (find_all ["div"] (main_content (decomposeAll doc))).map get_text_strip :=
      (divPass_texts_sublist _ seen).subset (List.mem_map_of_mem _ hsg)
    obtain ⟨el, hel, hts⟩ := List.mem_map.mp hmem
    rw [← hts] at hc
    obtain ⟨s, hs, hcs⟩ := mem_get_text_strip hc
    have hs2 : s ∈ textsOf (main_content (decomposeAll doc)) :=
      textsOf_sub (find_all_mem hel) s hs
    exact List.mem_flatten_of_mem (textsOf_main_content_sub _ s hs2) hcs
  rw [extractSegments_def] at h
  split at h
  · cases h
  · rename_i title heq
    by_cases htl : title ≠ []
    · rw [if_pos htl] at h
      injection h with h
      subst h
      intro sg hsg c hc
      rw [List.mem_append, List.mem_append] at hsg
      rcases hsg with (hsg | hsg) | hsg
      · rw [List.mem_singleton] at hsg
        subst hsg
        obtain ⟨tEl, s, hf, hts, rfl⟩ := titleStep_ok_ne_nil heq htl
        have hcs : c ∈ s := mem_stripChars hc
        have hsm : s ∈ textsOf (decomposeAll doc) :=
          textsOf_sub (find_mem hf) s (tagString_mem_textsOf tEl s hts)
        exact List.mem_flatten_of_mem hsm hcs
      · exact hp_case _ sg hsg c hc
      · exact dv_case _ sg hsg c hc
    · rw [if_neg htl] at h
      injection h with h
      subst h
      intro sg hsg c hc
      rw [List.nil_append, List.mem_append] at hsg
      rcases hsg with hsg | hsg
      · exact hp_case _ sg hsg c hc
      · exact dv_case _ sg hsg c hc

/-! ## Character provenance through joining and cleanup -/

theorem mem_joinLines {c : Char} : ∀ {ls : List Str}, c ∈ joinLines ls →
    c = '\n' ∨ ∃ l ∈ ls, c ∈ l := by
  intro ls
  induction ls with
  | nil => intro h; cases h
  | cons l ms ih =>
    intro h
    cases ms with
    | nil => exact Or.inr ⟨l, List.mem_cons_self _ _, h⟩
    | cons m ms' =>
      rw [joinLines_cons_of_ne (by simp)] at h
      rcases List.mem_append.mp h with h | h
      · exact Or.inr ⟨l, List.mem_cons_self _ _, h⟩
      · rcases List.mem_cons.mp h with rfl | h
        · exact Or.inl rfl
        · rcases ih h with h | ⟨l', hl', hc⟩
          · exact Or.inl h
          · exact Or.inr ⟨l', List.mem_cons_of_mem _ hl', hc⟩

theorem mem_sub1F {c : Char} : ∀ (fuel : Nat) (t : Str), c ∈ sub1F fuel t →
    c ∈ t ∨ c = '\n' := by
  intro fuel
  induction fuel with
  | zero =>
    intro t h
    cases t with
    | nil => cases h
    | cons d ds => exact Or.inl h
  | succ fuel ih =>
    intro t h
    match t with
    | [] => cases h
    | d :: ds =>
      rw [sub1F] at h
      by_cases hd : d = '\n'
      · rw [if_pos hd] at h
        cases hmt : matchTail ds with
        | some n =>
          rw [hmt] at h
          rcases List.mem_cons.mp h with rfl | h
          · exact Or.inr rfl
          · rcases List.mem_cons.mp h with rfl | h
            · exact Or.inr rfl
            · rcases ih _ h with h | h
              · exact Or.inl (List.mem_cons_of_mem _ (List.mem_of_mem_drop h))
              · exact Or.inr h
        | none =>
          rw [hmt] at h
          rcases List.mem_cons.mp h with rfl | h
          · exact Or.inl (List.mem_cons_self _ _)
          · rcases ih _ h with h | h
            · exact Or.inl (List.mem_cons_of_mem _ h)
            · exact Or.inr h
      · rw [if_neg hd] at h
        rcases List.mem_cons.mp h with rfl | h
        · exact Or.inl (List.mem_cons_self _ _)
        · rcases ih _ h with h | h
          · exact Or.inl (List.mem_cons_of_mem _ h)
          · exact Or.inr h

theorem mem_sub3F {c : Char} : ∀ (fuel : Nat) (t : Str), c ∈ sub3F fuel t →
    c ∈ t ∨ c = '\n' := by
  intro fuel
  induction fuel with
  | zero =>
    intro t h
    cases t with
    | nil => cases h
    | cons d ds => exact Or.inl h
  | succ fuel ih =>
    intro t h
    match t with
    | [] => cases h
    | d :: ds =>
      rw [sub3F] at h
      by_cases hd : d = '\n' ∧ ds.take 2 = ['\n', '\n']
      · rw [if_pos hd] at h
        rcases List.mem_cons.mp h with rfl | h
        · exact Or.inr rfl
        · rcases List.mem_cons.mp h with rfl | h
          · exact Or.inr rfl
          · rcases ih _ h with h | h
            · exact Or.inl
                (List.mem_cons_of_mem _ ((List.dropWhile_sublist _).subset h))
            · exact Or.inr h
      · rw [if_neg hd] at h
        rcases List.mem_cons.mp h with rfl | h
        · exact Or.inl (List.mem_cons_self _ _)
        · rcases ih _ h with h | h
          · exact Or.inl (List.mem_cons_of_mem _ h)
          · exact Or.inr h

theorem mem_lineStrip {c : Char} {t : Str} (h : c ∈ lineStrip t) :
    c ∈ t ∨ c = '\n' := by
  rw [lineStrip] at h
  rcases mem_joinLines h with h | ⟨l, hl, hc⟩
  · exact Or.inr h
  · obtain ⟨l', hl', rfl⟩ := List.mem_map.mp hl
    exact Or.inl (mem_of_mem_splitLines hl' (mem_stripChars hc))

theorem mem_cleanText {c : Char} {t : Str} (h : c ∈ cleanText t) :
    c ∈ t ∨ c = '\n' := by
  rw [cleanText] at h
  have h1 := mem_stripChars h
  rcases mem_sub3F _ _ h1 with h2 | h2
  · rcases mem_lineStrip h2 with h3 | h3
    · exact mem_sub1F _ _ h3
    · exact Or.inr h3
  · exact Or.inr h2

theorem mem_renderSeg {c : Char} {sg : Seg} (h : c ∈ renderSeg sg) :
    c ∈ sg.text ∨ c = '\n' := by
  obtain ⟨k, t⟩ := sg
  cases k <;> simp [renderSeg] at h ⊢ <;> tauto

theorem mem_joinedText {c : Char} {segs : List Seg} (h : c ∈ joinedText segs) :
    c = '\n' ∨ ∃ sg ∈ segs, c ∈ sg.text := by
  rw [joinedText] at h
  obtain ⟨l, hl, hc⟩ := List.mem_flatten.mp h
  obtain ⟨sg, hsg, rfl⟩ := List.mem_map.mp hl
  rcases mem_renderSeg hc with h | h
  · exact Or.inr ⟨sg, hsg, h⟩
  · exact Or.inl h

/-! ## Lemmas for the configuration round trip -/

/-- A value that survives `configparser` serialization unchanged: no (bare)
newlines the file format would reinterpret, no `%` subject to
interpolation, and no leading/trailing whitespace the parser would strip. -/
def iniSafe (v : Str) : Prop :=
  '\n' ∉ v ∧ '\r' ∉ v ∧ '%' ∉ v ∧ stripChars v = v

theorem nl_not_mem_append {a b : Str} (ha : '\n' ∉ a) (hb : '\n' ∉ b) :
    '\n' ∉ a ++ b := by
  rw [List.mem_append]
  rintro (h | h)
  · exact ha h
  · exact hb h

theorem stripChars_space_cons {v : Str} (h : stripChars v = v) :
    stripChars (' ' :: v) = v := by
  rw [stripChars_eq_self_iff, strippedLine, Bool.and_eq_true] at h
  rw [stripChars]
  rw [List.dropWhile_cons_of_pos (by simp [isPySpace])]
  rw [dropWhile_eq_self_of_head _ h.1]
  exact rstripWs_eq_self_of_getLast _ h.2

theorem save_config_lines (s : GptSettings)
    (h1 : '\n' ∉ s.model_name) (h2 : '\n' ∉ s.base_url)
    (h3 : '\n' ∉ s.api_key) (h4 : '\n' ∉ s.system_prompt) :
    splitLines (save_config s) =
      ["[GPT]".data,
       "use_gpt = ".data ++ pyStrBool s.use_gpt,
       "model_name = ".data ++ s.model_name,
       "base_url = ".data ++ s.base_url,
       "api_key = ".data ++ s.api_key,
       "system_prompt = ".data ++ s.system_prompt,
       [], []] := by
  have hug : '\n' ∉ pyStrBool s.use_gpt := by
    cases s.use_gpt <;> decide
  rw [save_config]
  rw [splitLines_append_nl (by decide)]
  rw [splitLines_append_nl (nl_not_mem_append (by decide) hug)]
  rw [splitLines_append_nl (nl_not_mem_append (by decide) h1)]
  rw [splitLines_append_nl (nl_not_mem_append (by decide) h2)]
  rw [splitLines_append_nl (nl_not_mem_append (by decide) h3)]
  rw [splitLines_append_nl (nl_not_mem_append (by decide) h4)]
  rfl

theorem iniLoop_cons (l : Str) (ls : List Str) (inG seenG : Bool)
    (acc : List (Str × Str)) :
    iniLoop (l :: ls) inG seenG acc =
      if l = [] then iniLoop ls inG seenG acc
      else
        match headerNameOf l with
        | some name => iniLoop ls (name == "GPT".data) (seenG || (name == "GPT".data)) acc
        | none =>
          match splitKV l with
          | some (k, v) =>
            iniLoop ls inG seenG (if inG then acc ++ [(stripChars k, stripChars v)] else acc)
          | none => iniLoop ls inG seenG acc := rfl

theorem iniLoop_header {l nm : Str} (hne : ¬(l = []))
    (hh : headerNameOf l = some nm) (ls : List Str) (inG seenG : Bool)
    (acc : List (Str × Str)) :
    iniLoop (l :: ls) inG seenG acc =
      iniLoop ls (nm == "GPT".data) (seenG || (nm == "GPT".data)) acc := by
  rw [iniLoop_cons, if_neg hne]
  split
  · rename_i name heq
    rw [heq, Option.some.injEq] at hh
    rw [hh]
  · rename_i heq
    rw [heq] at hh
    cases hh

theorem iniLoop_option {l k v : Str} (hne : ¬(l = []))
    (hh : headerNameOf l = none) (hskv : splitKV l = some (k, v))
    (ls : List Str) (seenG : Bool) (acc : List (Str × Str)) :
    iniLoop (l :: ls) true seenG acc =
      iniLoop ls true seenG (acc ++ [(stripChars k, stripChars v)]) := by
  rw [iniLoop_cons, if_neg hne]
  split
  · rename_i name heq
    rw [heq] at hh
    cases hh
  · split
    · rename_i k' v' heq
      rw [heq, Option.some.injEq, Prod.mk.injEq] at hskv
      rw [← hskv.1, ← hskv.2, if_pos rfl]
    · rename_i heq
      rw [heq] at hskv
      cases hskv

theorem iniLoop_empty (ls : List Str) (inG seenG : Bool)
    (acc : List (Str × Str)) :
    iniLoop ([] :: ls) inG seenG acc = iniLoop ls inG seenG acc := by
  rw [iniLoop_cons, if_pos rfl]

theorem iniLoop_nil (inG seenG : Bool) (acc : List (Str × Str)) :
    iniLoop [] inG seenG acc = (seenG, acc) := rfl

/-- Saving and re-loading the settings file reproduces the settings, for
values that survive INI serialization. -/
theorem load_config_save_config (s : GptSettings)
    (h1 : iniSafe s.model_name) (h2 : iniSafe s.base_url)
    (h3 : iniSafe s.api_key) (h4 : iniSafe s.system_prompt) :
    load_config (some (save_config s)) = .ok s := by
  obtain ⟨ug, mn, bu, ak, sp⟩ := s
  obtain ⟨hn1, -, -, hs1⟩ := h1
  obtain ⟨hn2, -, -, hs2⟩ := h2
  obtain ⟨hn3, -, -, hs3⟩ := h3
  obtain ⟨hn4, -, -, hs4⟩ := h4
  have hsp1 : stripChars (' ' :: mn) = mn := stripChars_space_cons hs1
  have hsp2 : stripChars (' ' :: bu) = bu := stripChars_space_cons hs2
  have hsp3 : stripChars (' ' :: ak) = ak := stripChars_space_cons hs3
  have hsp4 : stripChars (' ' :: sp) = sp := stripChars_space_cons hs4
  have hspu : stripChars (' ' :: pyStrBool ug) = pyStrBool ug :=
    stripChars_space_cons (by cases ug <;> decide)
  have hlines := save_config_lines ⟨ug, mn, bu, ak, sp⟩ hn1 hn2 hn3 hn4
  have hkv1 : splitKV ("use_gpt = ".data ++ pyStrBool ug) =
      some ("use_gpt ".data, ' ' :: pyStrBool ug) := by
    cases ug <;> rfl
  have hkv2 : splitKV ("model_name = ".data ++ mn) =
      some ("model_name ".data, ' ' :: mn) := rfl
  have hkv3 : splitKV ("base_url = ".data ++ bu) =
      some ("base_url ".data, ' ' :: bu) := rfl
  have hkv4 : splitKV ("api_key = ".data ++ ak) =
      some ("api_key ".data, ' ' :: ak) := rfl
  have hkv5 : splitKV ("system_prompt = ".data ++ sp) =
      some ("system_prompt ".data, ' ' :: sp) := rfl
  have hhdr : headerNameOf "[GPT]".data = some "GPT".data := by decide
  have hno1 : headerNameOf ("use_gpt = ".data ++ pyStrBool ug) = none := by
    cases ug <;> rfl
  have hno2 : headerNameOf ("model_name = ".data ++ mn) = none := rfl
  have hno3 : headerNameOf ("base_url = ".data ++ bu) = none := rfl
  have hno4 : headerNameOf ("api_key = ".data ++ ak) = none := rfl
  have hno5 : headerNameOf ("system_prompt = ".data ++ sp) = none := rfl
  have hparse : iniParse (save_config ⟨ug, mn, bu, ak, sp⟩) =
      (true, [("use_gpt".data, pyStrBool ug), ("model_name".data, mn),
              ("base_url".data, bu), ("api_key".data, ak),
              ("system_prompt".data, sp)]) := by
    rw [iniParse, hlines]
    rw [iniLoop_header (by decide) hhdr]
    rw [show (("GPT".data == "GPT".data) : Bool) = true from by decide]
    rw [Bool.false_or]
    rw [iniLoop_option (by simp) hno1 hkv1]
    rw [iniLoop_option (by simp) hno2 hkv2]
    rw [iniLoop_option (by simp) hno3 hkv3]
    rw [iniLoop_option (by simp) hno4 hkv4]
    rw [iniLoop_option (by simp) hno5 hkv5]
    rw [iniLoop_empty, iniLoop_empty, iniLoop_nil]
    rw [hsp1, hsp2, hsp3, hsp4, hspu]
    rw [show stripChars "use_gpt ".data = "use_gpt".data from by decide]
    rw [show stripChars "model_name ".data = "model_name".data from by decide]
    rw [show stripChars "base_url ".data = "base_url".data from by decide]
    rw [show stripChars "api_key ".data = "api_key".data from by decide]
    rw [show stripChars "system_prompt ".data = "system_prompt".data from by decide]
    simp
  rw [load_config]
  simp only [hparse]
  cases ug <;> rfl

/-! ## The claims -/

/-- C1: the claim states that the parsing-and-extraction stage of
`extract_text_from_url` never throws on any markup, including documents
with degenerate title elements.  The code refutes this: for
`<title>a<b>c</b></title>` (a non-empty title whose contents are two
children) `soup.title` is truthy but `soup.title.string` is `None`, so
`.strip()` on line 186 raises `AttributeError` and the function fails.
This theorem evaluates the embedded extraction at that failing input:
the title element's `.string` is `None` and the whole extraction errors. -/
theorem c1_extraction_raises_on_multichild_title :
    extract_text_from_url docBadTitle = .error () ∧
    tagString (.elem "title" [.text "a".data, .elem "b" [.text "c".data]]) = none :=
  ⟨rfl, rfl⟩

/-- C2: for every parsed document on which extraction succeeds, the
returned string contains no run of three or more consecutive newlines, no
line with leading or trailing whitespace, and no leading or trailing
whitespace overall (it is a fixed point of `strip`). -/
theorem c2_output_normalized (d : Node) (out : Str)
    (h : extract_text_from_url d = .ok out) :
    hasTriple out = false ∧ (∀ l ∈ splitLines out, stripChars l = l) ∧
      stripChars out = out := by
  rw [extract_text_from_url] at h
  split at h
  · cases h
  · rename_i segs heq
    injection h with h
    subst h
    obtain ⟨ht, hls, hsc⟩ := cleanText_normalized (joinedText segs)
    refine ⟨ht, ?_, hsc⟩
    intro l hl
    rw [stripChars_eq_self_iff]
    exact List.all_eq_true.mp hls l hl

theorem c2_output_normalized_witness :
    hasTriple "Hello\n\nWorld".data = false ∧
    (∀ l ∈ splitLines "Hello\n\nWorld".data, stripChars l = l) ∧
    stripChars "Hello\n\nWorld".data = "Hello\n\nWorld".data :=
  c2_output_normalized doc4 "Hello\n\nWorld".data rfl

/-- C3: within one extraction run no segment text is emitted twice: every
emitted segment's text is registered in the seen set and later elements
with exactly equal text are suppressed, so the emitted segment texts are
pairwise distinct. -/
theorem c3_no_duplicate_segments (d : Node) (segs : List Seg)
    (h : extractSegments d = .ok segs) : (segs.map Seg.text).Nodup :=
  extractSegments_nodup h

theorem c3_no_duplicate_segments_witness :
    (([⟨SegKind.title, "Hello".data⟩, ⟨SegKind.paragraph, "World".data⟩] :
      List Seg).map Seg.text).Nodup :=
  c3_no_duplicate_segments doc4 _ rfl

/-- C4: on `<title>Hello</title><body><h1>Hello</h1><p>World</p></body>`
the extraction produces exactly `"Hello\n\nWorld"`: the title segment, one
blank line, and the paragraph, with the `h1` suppressed as an exact
duplicate of the title. -/
theorem c4_concrete_example :
    extract_text_from_url doc4 = .ok "Hello\n\nWorld".data := rfl

/-- C5: the decompose step deletes every `script`/`style`/`meta`/`link`/
`noscript`/`header`/`footer`/`nav`/`aside` subtree before any pass runs:
no element with such a tag remains, the surviving text nodes are a
sub-collection of the document's, and every non-newline character of a
successful extraction's output comes from a surviving text node — so text
occurring only inside removed subtrees never appears in the output. -/
theorem c5_removed_tags_never_reach_output :
    (∀ d, find_all badTags (decomposeAll d) = []) ∧
    (∀ d, ∀ s ∈ textsOf (decomposeAll d), s ∈ textsOf d) ∧
    (∀ d out c, extract_text_from_url d = .ok out → c ∈ out → c ≠ '\n' →
      c ∈ (textsOf (decomposeAll d)).flatten) := by
  refine ⟨find_all_badTags_nil, decomposeAll_texts_sub, ?_⟩
  intro d out c h hc hne
  rw [extract_text_from_url] at h
  split at h
  · cases h
  · rename_i segs heq
    injection h with h
    subst h
    rcases mem_cleanText hc with hc' | hc'
    · rcases mem_joinedText hc' with hnl | ⟨sg, hsg, hcs⟩
      · exact absurd hnl hne
      · exact extractSegments_text_chars heq sg hsg c hcs
    · exact absurd hc' hne

theorem c5_removed_tags_never_reach_output_witness :
    'K' ∈ (textsOf (decomposeAll docScript)).flatten :=
  c5_removed_tags_never_reach_output.2.2 docScript "Keep".data 'K' rfl
    (by decide) (by decide)

/-- C6: in the div fallback pass, a div with a nested h1-h6 or p descendant
contributes nothing; otherwise its stripped text is emitted as a text
block exactly when it is non-empty, strictly longer than 50 characters,
and not already seen.  Concretely, a 30-character unique div text is
excluded and a 60-character one is included. -/
theorem c6_div_fallback_conditions :
    (∀ el els seen, (find hpTags el).isSome = true →
      divPass (el :: els) seen = divPass els seen) ∧
    (∀ el els seen, find hpTags el = none →
      divPass (el :: els) seen =
        if get_text_strip el ≠ [] ∧ 50 < (get_text_strip el).length ∧
            get_text_strip el ∉ seen then
          (⟨SegKind.textblock, get_text_strip el⟩ ::
            (divPass els (get_text_strip el :: seen)).1,
           (divPass els (get_text_strip el :: seen)).2)
        else divPass els seen) ∧
    extract_text_from_url doc30 = .ok [] ∧
    extract_text_from_url doc60 = .ok text60 := by
  refine ⟨?_, ?_, rfl, rfl⟩
  · intro el els seen hf
    rw [divPass_cons, if_pos hf]
  · intro el els seen hf
    rw [divPass_cons, if_neg (by rw [hf]; simp)]

theorem c6_div_fallback_conditions_witness :
    divPass [Node.elem "div" [Node.elem "p" [Node.text "x".data]]] [] =
      divPass [] [] :=
  c6_div_fallback_conditions.1 (Node.elem "div" [Node.elem "p" [Node.text "x".data]])
    [] [] (by decide)

/-- C7 counterexample: the claim says text split across child inline
elements is joined with a single space, so `<p>Hello <b>world</b></p>`
would give `"Hello world"`.  The code uses `get_text(strip=True)` with the
default empty separator, which strips each text node and concatenates with
no separator: the extraction yields `"Helloworld"`, not `"Hello world"`. -/
theorem c7_counterexample_no_space_join :
    extract_text_from_url docPB = .ok "Helloworld".data ∧
    "Helloworld".data ≠ "Hello world".data :=
  ⟨rfl, by decide⟩

/-- C7 (amended): every heading/paragraph segment's text is the element's
`get_text(strip=True)` — each descendant text node stripped of outer
whitespace and the pieces concatenated with no separator — and such text
has no leading or trailing whitespace; on `<p>Hello <b>world</b></p>` the
extraction yields `"Helloworld"`. -/
theorem c7_amended_get_text_semantics :
    (∀ els seen, ((hpPass els seen).1.map Seg.text).Sublist
      (els.map get_text_strip)) ∧
    (∀ n : Node, stripChars (get_text_strip n) = get_text_strip n) ∧
    extract_text_from_url docPB = .ok "Helloworld".data :=
  ⟨hpPass_texts_sublist, get_text_strip_stripped, rfl⟩

/-- C8 counterexample: the claim says segment order always matches document
order, in particular that a qualifying div occurring before a paragraph
yields its text block before that paragraph's segment.  In `docDivFirst`
the div precedes the paragraph, yet the paragraph segment comes first: the
heading/paragraph loop runs to completion before the div loop starts. -/
theorem c8_counterexample_div_after_paragraph :
    extractSegments docDivFirst =
      .ok [⟨SegKind.paragraph, "After".data⟩, ⟨SegKind.textblock, text60⟩] := rfl

/-- C8 (amended): a successful extraction's segment list is the title
segments, then the heading/paragraph segments, then the div text blocks;
within each pass the segment texts follow the document order of the
traversed elements (a sublist of the pass's element texts in traversal
order), but the two passes are sequential, so every heading/paragraph
segment precedes every text block regardless of document order. -/
theorem c8_amended_segment_order (d : Node) (segs : List Seg)
    (h : extractSegments d = .ok segs) :
    ∃ ts hs ds, segs = ts ++ hs ++ ds ∧
      (∀ sg ∈ ts, sg.kind = SegKind.title) ∧
      (∀ sg ∈ hs, sg.kind = SegKind.heading ∨ sg.kind = SegKind.paragraph) ∧
      (∀ sg ∈ ds, sg.kind = SegKind.textblock) ∧
      (hs.map Seg.text).Sublist
        ((find_all hpTags (main_content (decomposeAll d))).map get_text_strip) ∧
      (ds.map Seg.text).Sublist
        ((find_all ["div"] (main_content (decomposeAll d))).map get_text_strip) := by
  rw [extractSegments_def] at h
  split at h
  · cases h
  · rename_i title heq
    by_cases htl : title ≠ []
    · rw [if_pos htl] at h
      injection h with h
      subst h
      refine ⟨[⟨SegKind.title, title⟩], _, _, rfl, ?_, ?_, ?_, ?_, ?_⟩
      · intro sg hsg
        rw [List.mem_singleton] at hsg
        subst hsg
        rfl
      · exact hpPass_kinds _ _
      · exact divPass_kinds _ _
      · exact hpPass_texts_sublist _ _
      · exact divPass_texts_sublist _ _
    · rw [if_neg htl] at h
      injection h with h
      subst h
      refine ⟨[], _, _, rfl, by simp, ?_, ?_, ?_, ?_⟩
      · exact hpPass_kinds _ _
      · exact divPass_kinds _ _
      · exact hpPass_texts_sublist _ _
      · exact divPass_texts_sublist _ _

theorem c8_amended_segment_order_witness :
    ∃ ts hs ds,
      ([⟨SegKind.title, "Hello".data⟩, ⟨SegKind.paragraph, "World".data⟩] :
        List Seg) = ts ++ hs ++ ds ∧
      (∀ sg ∈ ts, sg.kind = SegKind.title) ∧
      (∀ sg ∈ hs, sg.kind = SegKind.heading ∨ sg.kind = SegKind.paragraph) ∧
      (∀ sg ∈ ds, sg.kind = SegKind.textblock) ∧
      (hs.map Seg.text).Sublist
        ((find_all hpTags (main_content (decomposeAll doc4))).map get_text_strip) ∧
      (ds.map Seg.text).Sublist
        ((find_all ["div"] (main_content (decomposeAll doc4))).map get_text_strip) :=
  c8_amended_segment_order doc4 _ rfl

/-- C9: if the chat-completion call raises (bad key, unreachable endpoint)
or the response is malformed (no choices), `process_text_with_gpt` returns
the original text unchanged; if the call succeeds with a first choice, it
returns that choice's message content. -/
theorem c9_gpt_failure_returns_input (text : Str) :
    (∀ e, process_text_with_gpt text (.error e) = text) ∧
    (∀ r : ChatResponse, r.choices = [] →
      process_text_with_gpt text (.ok r) = text) ∧
    (∀ (r : ChatResponse) (c : ChatChoice) (rest : List ChatChoice),
      r.choices = c :: rest →
      process_text_with_gpt text (.ok r) = c.message.content) := by
  refine ⟨fun e => rfl, ?_, ?_⟩
  · intro r hr
    simp [process_text_with_gpt, hr]
  · intro r c rest hr
    simp [process_text_with_gpt, hr]

theorem c9_gpt_failure_returns_input_witness :
    process_text_with_gpt "abc".data
      (.ok ⟨[⟨⟨"assistant".data, "reply".data⟩⟩]⟩) = "reply".data :=
  (c9_gpt_failure_returns_input "abc".data).2.2 ⟨[⟨⟨"assistant".data, "reply".data⟩⟩]⟩
    ⟨⟨"assistant".data, "reply".data⟩⟩ [] rfl

/-- C10: for settings whose `use_gpt` is a boolean and whose string fields
survive INI serialization (no interpolation `%`, no bare newlines, no
leading/trailing whitespace), `save_config` followed by `load_config`
returns the settings unchanged. -/
theorem c10_config_roundtrip (s : GptSettings) (h1 : iniSafe s.model_name)
    (h2 : iniSafe s.base_url) (h3 : iniSafe s.api_key)
    (h4 : iniSafe s.system_prompt) :
    load_config (some (save_config s)) = .ok s :=
  load_config_save_config s h1 h2 h3 h4

theorem c10_config_roundtrip_witness :
    load_config (some (save_config ⟨true, "glm-4-flash".data,
      "https://open.bigmodel.cn/api/paas/v4".data, "sk-12=34:x".data,
      "hi there".data⟩)) =
    .ok ⟨true, "glm-4-flash".data, "https://open.bigmodel.cn/api/paas/v4".data,
      "sk-12=34:x".data, "hi there".data⟩ :=
  c10_config_roundtrip ⟨true, "glm-4-flash".data,
      "https://open.bigmodel.cn/api/paas/v4".data, "sk-12=34:x".data,
      "hi there".data⟩ (by unfold iniSafe; decide) (by unfold iniSafe; decide)
    (by unfold iniSafe; decide) (by unfold iniSafe; decide)
